import Mathlib

/-!
Verification of the OT (operational transformation) text-operation core
(`ot/text_operation.py`).

Embedding conventions:
* A Python string is modelled as a `List Char`; `doc[i:j]` under a cursor `i`
  is modelled by state-passing the unconsumed suffix `doc.drop i`, so
  `doc[i:(i+n)]` becomes `rem.take n` (both clamp past the end, like Python
  slices).
* The three operation classes `Retain`, `Insert`, `Delete` become the
  constructors of the sum type `Op`.
* `TextOperation` holds a plain list of `Op`; the mutating builder method
  `append` becomes a function `List Op → Op → List Op` returning the new list.
* Python exceptions become `Except` results.  The code raises a bare
  `Exception` in the `Retain` branch of `__call__` and
  `IncompatibleOperationError` everywhere else; the error type `OTError`
  keeps those kinds (and their distinct messages) apart.
* The `while`-loops of `compose`/`transform`, which keep a possibly
  partially-consumed current element per side (`a`, `b`) next to an iterator,
  are modelled as recursion on two lists whose heads are the current
  elements: `_shorten_ops` pushing a shortened remainder back into the slot
  becomes consing the shortened op back onto that side's list.
* In `transform`, when one side is exhausted while the other's current
  element is not an `Insert`, the Python code evaluates `len(None)` and dies
  with a `TypeError`; that crash is modelled by `Option.none`.
-/

/-- The three operation classes of the source: `Retain(n)`, `Insert(str)`,
`Delete(n)`. -/
inductive Op where
  | Retain (n : Nat)
  | Insert (s : List Char)
  | Delete (n : Nat)
deriving DecidableEq, Repr

namespace Op

/-- `__len__` of each operation class. -/
def length : Op → Nat
  | .Retain n => n
  | .Insert s => s.length
  | .Delete n => n

/-- `len_difference` of each operation class: 0 for `Retain`,
`+len(s)` for `Insert`, `-n` for `Delete`. -/
def len_difference : Op → Int
  | .Retain _ => 0
  | .Insert s => (s.length : Int)
  | .Delete n => -(n : Int)

/-- `shorten(n)` of each operation class (`Retain(self.n - n)`,
`Insert(self.str[n:])`, `Delete(self.n - n)`). -/
def shorten : Op → Nat → Op
  | .Retain n, k => .Retain (n - k)
  | .Insert s, k => .Insert (s.drop k)
  | .Delete n, k => .Delete (n - k)

/-- `merge(other)`: only ever invoked on two operations of the same class
(`Retain`+`Retain` summed, `Insert`+`Insert` concatenated,
`Delete`+`Delete` summed); the final catch-all is unreachable in the code. -/
def merge : Op → Op → Op
  | .Retain n, .Retain m => .Retain (n + m)
  | .Insert s, .Insert t => .Insert (s ++ t)
  | .Delete n, .Delete m => .Delete (n + m)
  | a, _ => a

/-- `self.ops[-1].__class__ == op.__class__`: the two operations are
instances of the same class. -/
def sameVariant : Op → Op → Bool
  | .Retain _, .Retain _ => true
  | .Insert _, .Insert _ => true
  | .Delete _, .Delete _ => true
  | _, _ => false

end Op

/-- The error kinds the source can raise.  `plainTooLong` is the bare
`Exception("Cannot apply operation: operation is too long.")` of the
`Retain` branch of `__call__`; all other kinds are
`IncompatibleOperationError` with the corresponding message. -/
inductive OTError where
  | plainTooLong
  | applyTooLong
  | applyTooShort
  | composeTooShort
  | composeTooLong
deriving DecidableEq, Repr

/-- Whether the raised exception is an instance of
`IncompatibleOperationError` (everything except the bare `Exception` of the
`Retain` branch of `__call__`). -/
def OTError.isIncompatibleOperationError : OTError → Bool
  | .plainTooLong => false
  | _ => true

/-- A `TextOperation` is its list of ops. -/
abbrev TextOperation := List Op

namespace TextOperation

/-- `TextOperation.append(op)`: drop zero-length ops; merge with the last
element when it is of the same class; otherwise push. -/
def append (l : TextOperation) (op : Op) : TextOperation :=
  if op.length = 0 then l
  else
    match l.getLast? with
    | none => l ++ [op]
    | some last =>
        if Op.sameVariant last op then l.dropLast ++ [Op.merge last op]
        else l ++ [op]

/-- The traversal of `__call__`: processes the ops left to right over the
unconsumed document suffix, returning the produced output together with the
still-unconsumed suffix (the final `i != len(doc)` check is applied by
`apply` on top).  The `Retain` branch raises a bare `Exception` when the
operation overruns the document; the `Delete` branch raises
`IncompatibleOperationError`. -/
def applyGo : TextOperation → List Char → Except OTError (List Char × List Char)
  | [], doc => .ok ([], doc)
  | .Retain n :: rest, doc =>
      if n ≤ doc.length then
        (applyGo rest (doc.drop n)).map (fun p => (doc.take n ++ p.1, p.2))
      else .error .plainTooLong
  | .Insert s :: rest, doc =>
      (applyGo rest doc).map (fun p => (s ++ p.1, p.2))
  | .Delete n :: rest, doc =>
      if n ≤ doc.length then applyGo rest (doc.drop n)
      else .error .applyTooLong

/-- `TextOperation.__call__(doc)`: run the traversal, then fail with
`IncompatibleOperationError("... operation is too short.")` unless the
cursor consumed the document exactly. -/
def apply (l : TextOperation) (doc : List Char) : Except OTError (List Char) :=
  match applyGo l doc with
  | .ok (out, rem) => if rem = [] then .ok out else .error .applyTooShort
  | .error e => .error e

/-- `TextOperation.len_difference()`: sum of the ops' length deltas. -/
def len_difference : TextOperation → Int
  | [] => 0
  | op :: rest => Op.len_difference op + len_difference rest

/-- The number of source-document characters an operation list consumes:
the sum of its `Retain` and `Delete` lengths.  A sequence is valid against
`doc` (spec §3) precisely when this equals `doc.length`. -/
def srcLen : TextOperation → Nat
  | [] => 0
  | .Retain n :: rest => n + srcLen rest
  | .Insert _ :: rest => srcLen rest
  | .Delete n :: rest => n + srcLen rest

/-- The data-model invariant of spec §3: an `Operation` in a sequence never
has zero length. -/
def wellFormed (l : TextOperation) : Prop := ∀ op ∈ l, 0 < op.length

instance (l : TextOperation) : Decidable (wellFormed l) := by
  unfold wellFormed; infer_instance

/-- The loop of `invert(doc)`, with the builder `inverse` as accumulator
and the cursor replaced by the unconsumed document suffix.  `Retain` is
copied, `Insert(s)` becomes `Delete(len(s))`, and `Delete(n)` becomes
`Insert(doc[i:i+n])`; like the Python slice, `doc.take n` clamps at the end
of the document, so no error is ever raised. -/
def invertLoop : TextOperation → TextOperation → List Char → TextOperation
  | acc, [], _ => acc
  | acc, .Retain n :: rest, doc => invertLoop (append acc (.Retain n)) rest (doc.drop n)
  | acc, .Insert s :: rest, doc => invertLoop (append acc (.Delete s.length)) rest doc
  | acc, .Delete n :: rest, doc =>
      invertLoop (append acc (.Insert (doc.take n))) rest (doc.drop n)

/-- `TextOperation.invert(doc)`. -/
def invert (l : TextOperation) (doc : List Char) : TextOperation := invertLoop [] l doc

/-- The loop of `compose`.  The heads of the two lists are the current
(possibly already shortened) elements `a` and `b`; `_shorten_ops` is
modelled by consing the shortened remainder back.  Match order mirrors the
source's check order: end condition, `a`-is-`Delete`, `b`-is-`Insert`,
`a` exhausted (error "first operation is too short"), `b` exhausted (error
"first operation is too long"), then the four aligned cases consuming
`min(len(a), len(b))`. -/
def composeLoop : TextOperation → TextOperation → TextOperation → Except OTError TextOperation
  | acc, [], [] => .ok acc
  | acc, .Delete n :: as, lb => composeLoop (append acc (.Delete n)) as lb
  | acc, la, .Insert s :: bs => composeLoop (append acc (.Insert s)) la bs
  | _, [], _ => .error .composeTooShort
  | _, _, [] => .error .composeTooLong
  | acc, a :: as, b :: bs =>
      let m := min a.length b.length
      let acc' :=
        match a, b with
        | .Retain _, .Retain _ => append acc (.Retain m)
        | .Insert s, .Retain _ => append acc (.Insert (s.take m))
        | .Retain _, .Delete _ => append acc (.Delete m)
        | _, _ => acc
      if a.length = b.length then composeLoop acc' as bs
      else if b.length < a.length then composeLoop acc' (a.shorten b.length :: as) bs
      else composeLoop acc' as (b.shorten a.length :: bs)
termination_by acc la lb => la.length + lb.length
decreasing_by all_goals simp_wf <;> omega

/-- `TextOperation.compose(other)`. -/
def compose (l other : TextOperation) : Except OTError TextOperation :=
  composeLoop [] l other

/-- The loop of `transform`, with the two builders `a_prime`, `b_prime` as
accumulators.  Match order mirrors the source: end condition,
`a`-is-`Insert` (A gets priority), `b`-is-`Insert`, then the aligned cases.
When one side is exhausted while the other's current element is not an
`Insert`, the source evaluates `min(len(a), len(b))` with one operand
`None` and crashes with a `TypeError`; that is modelled by `none`. -/
def transformLoop : TextOperation → TextOperation → TextOperation → TextOperation →
    Option (TextOperation × TextOperation)
  | accA, accB, [], [] => some (accA, accB)
  | accA, accB, .Insert s :: as, lb =>
      transformLoop (append accA (.Insert s)) (append accB (.Retain s.length)) as lb
  | accA, accB, la, .Insert s :: bs =>
      transformLoop (append accA (.Retain s.length)) (append accB (.Insert s)) la bs
  | _, _, [], _ => none
  | _, _, _, [] => none
  | accA, accB, a :: as, b :: bs =>
      let m := min a.length b.length
      let accA' :=
        match a, b with
        | .Retain _, .Retain _ => append accA (.Retain m)
        | .Delete _, .Retain _ => append accA (.Delete m)
        | _, _ => accA
      let accB' :=
        match a, b with
        | .Retain _, .Retain _ => append accB (.Retain m)
        | .Retain _, .Delete _ => append accB (.Delete m)
        | _, _ => accB
      if a.length = b.length then transformLoop accA' accB' as bs
      else if b.length < a.length then transformLoop accA' accB' (a.shorten b.length :: as) bs
      else transformLoop accA' accB' as (b.shorten a.length :: bs)
termination_by accA accB la lb => la.length + lb.length
decreasing_by all_goals simp_wf <;> omega

/-- `TextOperation.transform(operation_a, operation_b)`. -/
def transform (la lb : TextOperation) : Option (TextOperation × TextOperation) :=
  transformLoop [] [] la lb

end TextOperation

namespace TextOperation

@[simp] theorem applyGo_nil_eq (doc : List Char) : applyGo [] doc = .ok ([], doc) := rfl

theorem applyGo_Retain_ok {n : Nat} {rest : TextOperation} {doc t rem : List Char} :
    applyGo (Op.Retain n :: rest) doc = .ok (t, rem) ↔
      n ≤ doc.length ∧
        ∃ t₁, applyGo rest (doc.drop n) = .ok (t₁, rem) ∧ t = doc.take n ++ t₁ := by
  rw [applyGo]
  by_cases h : n ≤ doc.length
  · cases happ : applyGo rest (doc.drop n) with
    | ok p =>
        simp only [h, if_true, if_pos, happ, Except.map, Except.ok.injEq, Prod.ext_iff, true_and]
        aesop
    | error e => simp [h, happ, Except.map]
  · simp [h]

theorem applyGo_Insert_ok {s : List Char} {rest : TextOperation} {doc t rem : List Char} :
    applyGo (Op.Insert s :: rest) doc = .ok (t, rem) ↔
      ∃ t₁, applyGo rest doc = .ok (t₁, rem) ∧ t = s ++ t₁ := by
  rw [applyGo]
  cases happ : applyGo rest doc with
  | ok p =>
      simp only [happ, Except.map, Except.ok.injEq, Prod.ext_iff]
      aesop
  | error e => simp [happ, Except.map]

theorem applyGo_Delete_ok {n : Nat} {rest : TextOperation} {doc t rem : List Char} :
    applyGo (Op.Delete n :: rest) doc = .ok (t, rem) ↔
      n ≤ doc.length ∧ applyGo rest (doc.drop n) = .ok (t, rem) := by
  rw [applyGo]
  by_cases h : n ≤ doc.length <;> simp [h]

theorem applyGo_append_eq (l₁ l₂ : TextOperation) (doc : List Char) :
    applyGo (l₁ ++ l₂) doc =
      match applyGo l₁ doc with
      | .error e => .error e
      | .ok (o, r) =>
          match applyGo l₂ r with
          | .error e => .error e
          | .ok (o₂, r₂) => .ok (o ++ o₂, r₂) := by
  induction l₁ generalizing doc with
  | nil =>
      cases happ : applyGo l₂ doc with
      | ok p => simp [happ]
      | error e => simp [happ]
  | cons op rest ih =>
      cases op with
      | Retain n =>
          by_cases h : n ≤ doc.length
          · rw [List.cons_append, applyGo, applyGo, if_pos h, if_pos h, ih]
            cases h₁ : applyGo rest (doc.drop n) with
            | ok p =>
                cases h₂ : applyGo l₂ p.2 with
                | ok q => simp [h₁, h₂, Except.map, List.append_assoc]
                | error e => simp [h₁, h₂, Except.map]
            | error e => simp [h₁, Except.map]
          · rw [List.cons_append, applyGo, applyGo, if_neg h, if_neg h]
      | Insert s =>
          rw [List.cons_append, applyGo, applyGo, ih]
          cases h₁ : applyGo rest doc with
          | ok p =>
              cases h₂ : applyGo l₂ p.2 with
              | ok q => simp [h₁, h₂, Except.map, List.append_assoc]
              | error e => simp [h₁, h₂, Except.map]
          | error e => simp [h₁, Except.map]
      | Delete n =>
          by_cases h : n ≤ doc.length
          · rw [List.cons_append, applyGo, applyGo, if_pos h, if_pos h, ih]
          · rw [List.cons_append, applyGo, applyGo, if_neg h, if_neg h]

theorem applyGo_append_ok {l₁ l₂ : TextOperation} {doc o r o₂ r₂ : List Char}
    (h₁ : applyGo l₁ doc = .ok (o, r)) (h₂ : applyGo l₂ r = .ok (o₂, r₂)) :
    applyGo (l₁ ++ l₂) doc = .ok (o ++ o₂, r₂) := by
  rw [applyGo_append_eq, h₁]
  simp only []
  rw [h₂]

theorem applyGo_single_Retain {n : Nat} {doc : List Char} (h : n ≤ doc.length) :
    applyGo [Op.Retain n] doc = .ok (doc.take n, doc.drop n) := by
  simp [applyGo, h, Except.map]

theorem applyGo_single_Insert (s : List Char) (doc : List Char) :
    applyGo [Op.Insert s] doc = .ok (s, doc) := by
  simp [applyGo, Except.map]

theorem applyGo_single_Delete {n : Nat} {doc : List Char} (h : n ≤ doc.length) :
    applyGo [Op.Delete n] doc = .ok ([], doc.drop n) := by
  simp [applyGo, h]

theorem applyGo_single_zero {op : Op} (h : op.length = 0) (doc : List Char) :
    applyGo [op] doc = .ok ([], doc) := by
  cases op with
  | Retain n =>
      simp only [Op.length] at h
      subst h; simp [applyGo, Except.map]
  | Insert s =>
      simp only [Op.length, List.length_eq_zero] at h
      subst h; simp [applyGo, Except.map]
  | Delete n =>
      simp only [Op.length] at h
      subst h; simp [applyGo]

theorem applyGo_merge_pair {a b : Op} (h : Op.sameVariant a b = true) (doc : List Char) :
    applyGo [Op.merge a b] doc = applyGo [a, b] doc := by
  cases a with
  | Retain n =>
      cases b with
      | Retain m =>
          by_cases h1 : n + m ≤ doc.length
          · have h2 : n ≤ doc.length := by omega
            have h3 : m ≤ doc.length - n := by omega
            simp [Op.merge, applyGo, h1, h2, h3, Except.map, List.take_add,
              List.drop_drop, Nat.add_comm]
          · by_cases h2 : n ≤ doc.length
            · have h3 : ¬ m ≤ doc.length - n := by omega
              simp [Op.merge, applyGo, h1, h2, h3, Except.map]
            · simp [Op.merge, applyGo, h1, h2]
      | Insert s => simp [Op.sameVariant] at h
      | Delete m => simp [Op.sameVariant] at h
  | Insert s =>
      cases b with
      | Retain m => simp [Op.sameVariant] at h
      | Insert t => simp [Op.merge, applyGo, Except.map, List.append_assoc]
      | Delete m => simp [Op.sameVariant] at h
  | Delete n =>
      cases b with
      | Retain m => simp [Op.sameVariant] at h
      | Insert s => simp [Op.sameVariant] at h
      | Delete m =>
          by_cases h1 : n + m ≤ doc.length
          · have h2 : n ≤ doc.length := by omega
            have h3 : m ≤ doc.length - n := by omega
            simp [Op.merge, applyGo, h1, h2, h3, List.drop_drop, Nat.add_comm]
          · by_cases h2 : n ≤ doc.length
            · have h3 : ¬ m ≤ doc.length - n := by omega
              simp [Op.merge, applyGo, h1, h2, h3]
            · simp [Op.merge, applyGo, h1, h2]

/-- The builder `append` (merge-on-append, zero-drop) never changes the
meaning of the operation list: applying the built list is the same as
applying the raw list with the new op at the end. -/
theorem applyGo_append_op (l : TextOperation) (op : Op) (doc : List Char) :
    applyGo (append l op) doc = applyGo (l ++ [op]) doc := by
  by_cases hz : op.length = 0
  · rw [append, if_pos hz, applyGo_append_eq]
    cases h : applyGo l doc with
    | ok p => simp [applyGo_single_zero hz]
    | error e => simp
  · rcases List.eq_nil_or_concat l with rfl | ⟨L, b, rfl⟩
    · simp [append, hz]
    · rw [List.concat_eq_append]
      by_cases hs : Op.sameVariant b op
      · have hc : append (L ++ [b]) op = L ++ [Op.merge b op] := by
          simp [append, hz, List.getLast?_concat, List.dropLast_concat, hs]
        rw [hc, List.append_assoc, applyGo_append_eq, applyGo_append_eq]
        cases h : applyGo L doc with
        | ok p =>
            simp only [applyGo_merge_pair hs]
            rfl
        | error e => rfl
      · have hc : append (L ++ [b]) op = (L ++ [b]) ++ [op] := by
          simp [append, hz, List.getLast?_concat, List.dropLast_concat, hs]
        rw [hc]

theorem applyGo_builder_Retain {acc : TextOperation} {X pre r : List Char} {n : Nat}
    (h : applyGo acc X = .ok (pre, r)) (hn : n ≤ r.length) :
    applyGo (append acc (.Retain n)) X = .ok (pre ++ r.take n, r.drop n) := by
  rw [applyGo_append_op]
  exact applyGo_append_ok h (applyGo_single_Retain hn)

theorem applyGo_builder_Insert {acc : TextOperation} {X pre r : List Char} (s : List Char)
    (h : applyGo acc X = .ok (pre, r)) :
    applyGo (append acc (.Insert s)) X = .ok (pre ++ s, r) := by
  rw [applyGo_append_op]
  exact applyGo_append_ok h (applyGo_single_Insert s r)

theorem applyGo_builder_Delete {acc : TextOperation} {X pre r : List Char} {n : Nat}
    (h : applyGo acc X = .ok (pre, r)) (hn : n ≤ r.length) :
    applyGo (append acc (.Delete n)) X = .ok (pre, r.drop n) := by
  rw [applyGo_append_op]
  have := applyGo_append_ok h (applyGo_single_Delete hn)
  simpa using this

theorem applyGo_of_srcLen_le :
    ∀ (l : TextOperation) (doc : List Char), srcLen l ≤ doc.length →
      ∃ out, applyGo l doc = .ok (out, doc.drop (srcLen l))
  | [], doc, _ => ⟨[], by simp [srcLen]⟩
  | .Retain n :: rest, doc, h => by
      rw [srcLen] at h
      have hn : n ≤ doc.length := by omega
      have h' : srcLen rest ≤ (doc.drop n).length := by
        simp only [List.length_drop]; omega
      obtain ⟨out, hout⟩ := applyGo_of_srcLen_le rest (doc.drop n) h'
      refine ⟨doc.take n ++ out, ?_⟩
      rw [applyGo, if_pos hn, hout]
      simp [Except.map, List.drop_drop, srcLen, Nat.add_comm]
  | .Insert s :: rest, doc, h => by
      rw [srcLen] at h
      obtain ⟨out, hout⟩ := applyGo_of_srcLen_le rest doc h
      refine ⟨s ++ out, ?_⟩
      rw [applyGo, hout]
      simp [Except.map, srcLen]
  | .Delete n :: rest, doc, h => by
      rw [srcLen] at h
      have hn : n ≤ doc.length := by omega
      have h' : srcLen rest ≤ (doc.drop n).length := by
        simp only [List.length_drop]; omega
      obtain ⟨out, hout⟩ := applyGo_of_srcLen_le rest (doc.drop n) h'
      refine ⟨out, ?_⟩
      rw [applyGo, if_pos hn, hout]
      simp [List.drop_drop, srcLen, Nat.add_comm]

theorem applyGo_ok_inv :
    ∀ {l : TextOperation} {doc out rem : List Char},
      applyGo l doc = .ok (out, rem) →
      srcLen l ≤ doc.length ∧ rem = doc.drop (srcLen l)
  | [], doc, out, rem, h => by
      rw [applyGo_nil_eq] at h
      cases h
      simp [srcLen]
  | .Retain n :: rest, doc, out, rem, h => by
      obtain ⟨hn, t₁, h₁, rfl⟩ := applyGo_Retain_ok.mp h
      obtain ⟨hle, hrem⟩ := applyGo_ok_inv h₁
      constructor
      · rw [srcLen]; simp only [List.length_drop] at hle; omega
      · rw [hrem, srcLen, List.drop_drop, Nat.add_comm]
  | .Insert s :: rest, doc, out, rem, h => by
      obtain ⟨t₁, h₁, rfl⟩ := applyGo_Insert_ok.mp h
      obtain ⟨hle, hrem⟩ := applyGo_ok_inv h₁
      exact ⟨by rwa [srcLen], by rwa [srcLen]⟩
  | .Delete n :: rest, doc, out, rem, h => by
      obtain ⟨hn, h₁⟩ := applyGo_Delete_ok.mp h
      obtain ⟨hle, hrem⟩ := applyGo_ok_inv h₁
      constructor
      · rw [srcLen]; simp only [List.length_drop] at hle; omega
      · rw [hrem, srcLen, List.drop_drop, Nat.add_comm]

theorem apply_eq_ok {l : TextOperation} {doc out : List Char} :
    apply l doc = .ok out ↔ applyGo l doc = .ok (out, []) := by
  rw [apply]
  cases h : applyGo l doc with
  | ok p =>
      by_cases hrem : p.2 = []
      · cases p with
        | mk o r => simp_all
      · cases p with
        | mk o r => simp_all
  | error e => simp

/-- Validity (spec §3: sum of `Retain` and `Delete` lengths equals the
document length) guarantees `__call__` succeeds. -/
theorem apply_of_valid {l : TextOperation} {doc : List Char}
    (h : srcLen l = doc.length) :
    ∃ out, apply l doc = .ok out ∧ applyGo l doc = .ok (out, []) := by
  obtain ⟨out, hout⟩ := applyGo_of_srcLen_le l doc (le_of_eq h)
  rw [h, List.drop_length] at hout
  exact ⟨out, apply_eq_ok.mpr hout, hout⟩

theorem len_difference_append_list (l₁ l₂ : TextOperation) :
    len_difference (l₁ ++ l₂) = len_difference l₁ + len_difference l₂ := by
  induction l₁ with
  | nil => simp [len_difference]
  | cons op rest ih => rw [List.cons_append, len_difference, len_difference, ih]; ring

theorem Op.length_merge {a b : Op} (h : Op.sameVariant a b = true) :
    (Op.merge a b).length = a.length + b.length := by
  cases a <;> cases b <;> simp_all [Op.sameVariant, Op.merge, Op.length]

theorem Op.len_difference_merge {a b : Op} (h : Op.sameVariant a b = true) :
    (Op.merge a b).len_difference = a.len_difference + b.len_difference := by
  cases a <;> cases b <;> simp_all [Op.sameVariant, Op.merge, Op.len_difference] <;> omega

theorem Op.len_difference_of_length_zero {op : Op} (h : op.length = 0) :
    op.len_difference = 0 := by
  cases op <;> simp_all [Op.length, Op.len_difference]

theorem len_difference_builder (l : TextOperation) (op : Op) :
    len_difference (append l op) = len_difference l + op.len_difference := by
  by_cases hz : op.length = 0
  · rw [append, if_pos hz, Op.len_difference_of_length_zero hz, add_zero]
  · rcases List.eq_nil_or_concat l with rfl | ⟨L, b, rfl⟩
    · simp [append, hz, len_difference]
    · rw [List.concat_eq_append]
      by_cases hs : Op.sameVariant b op
      · have hc : append (L ++ [b]) op = L ++ [Op.merge b op] := by
          simp [append, hz, List.getLast?_concat, List.dropLast_concat, hs]
        rw [hc, len_difference_append_list, len_difference_append_list,
          len_difference, len_difference, len_difference, len_difference,
          Op.len_difference_merge hs]
        ring
      · have hc : append (L ++ [b]) op = (L ++ [b]) ++ [op] := by
          simp [append, hz, List.getLast?_concat, List.dropLast_concat, hs]
        rw [hc, len_difference_append_list, len_difference, len_difference]
        ring

theorem wellFormed_builder {l : TextOperation} (h : wellFormed l) (op : Op) :
    wellFormed (append l op) := by
  by_cases hz : op.length = 0
  · rwa [append, if_pos hz]
  · rcases List.eq_nil_or_concat l with rfl | ⟨L, b, rfl⟩
    · intro x hx
      simp [append, hz] at hx
      subst hx; omega
    · rw [List.concat_eq_append] at h ⊢
      by_cases hs : Op.sameVariant b op
      · have hc : append (L ++ [b]) op = L ++ [Op.merge b op] := by
          simp [append, hz, List.getLast?_concat, List.dropLast_concat, hs]
        rw [hc]
        intro x hx
        rcases List.mem_append.mp hx with hx | hx
        · exact h x (List.mem_append.mpr (Or.inl hx))
        · rw [List.mem_singleton.mp hx, Op.length_merge hs]
          omega
      · have hc : append (L ++ [b]) op = (L ++ [b]) ++ [op] := by
          simp [append, hz, List.getLast?_concat, List.dropLast_concat, hs]
        rw [hc]
        intro x hx
        rcases List.mem_append.mp hx with hx | hx
        · exact h x hx
        · rw [List.mem_singleton.mp hx]; omega

theorem invertLoop_applyGo :
    ∀ (l : TextOperation) (d out : List Char), applyGo l d = .ok (out, []) →
      ∀ (acc : TextOperation) (X pre : List Char), applyGo acc X = .ok (pre, out) →
        applyGo (invertLoop acc l d) X = .ok (pre ++ d, [])
  | [], d, out, h, acc, X, pre, hacc => by
      rw [applyGo_nil_eq] at h
      cases h
      rw [invertLoop]
      simpa using hacc
  | .Retain n :: rest, d, out, h, acc, X, pre, hacc => by
      obtain ⟨hn, t₁, h₁, rfl⟩ := applyGo_Retain_ok.mp h
      have htn : (d.take n).length = n := by simp [List.length_take]; omega
      have hlen : n ≤ (d.take n ++ t₁).length := by simp [htn]
      have htake : (d.take n ++ t₁).take n = d.take n := List.take_left' htn
      have hdrop : (d.take n ++ t₁).drop n = t₁ := List.drop_left' htn
      have hacc' := applyGo_builder_Retain hacc hlen
      rw [htake, hdrop] at hacc'
      rw [invertLoop]
      have := invertLoop_applyGo rest (d.drop n) t₁ h₁ _ X (pre ++ d.take n) hacc'
      rwa [List.append_assoc, List.take_append_drop] at this
  | .Insert s :: rest, d, out, h, acc, X, pre, hacc => by
      obtain ⟨t₁, h₁, rfl⟩ := applyGo_Insert_ok.mp h
      have hlen : s.length ≤ (s ++ t₁).length := by simp
      have hdrop : (s ++ t₁).drop s.length = t₁ := List.drop_left' rfl
      have hacc' := applyGo_builder_Delete hacc hlen
      rw [hdrop] at hacc'
      rw [invertLoop]
      exact invertLoop_applyGo rest d t₁ h₁ _ X pre hacc'
  | .Delete n :: rest, d, out, h, acc, X, pre, hacc => by
      obtain ⟨hn, h₁⟩ := applyGo_Delete_ok.mp h
      have hacc' := applyGo_builder_Insert (d.take n) hacc
      rw [invertLoop]
      have := invertLoop_applyGo rest (d.drop n) out h₁ _ X (pre ++ d.take n) hacc'
      rwa [List.append_assoc, List.take_append_drop] at this

theorem invertLoop_len_difference :
    ∀ (l : TextOperation) (d : List Char), srcLen l ≤ d.length →
      ∀ acc, len_difference (invertLoop acc l d) =
        len_difference acc - len_difference l
  | [], d, _, acc => by rw [invertLoop, len_difference]; ring
  | .Retain n :: rest, d, h, acc => by
      rw [srcLen] at h
      have h' : srcLen rest ≤ (d.drop n).length := by
        simp only [List.length_drop]; omega
      rw [invertLoop, invertLoop_len_difference rest (d.drop n) h',
        len_difference_builder, len_difference]
      simp only [Op.len_difference]
      ring
  | .Insert s :: rest, d, h, acc => by
      rw [srcLen] at h
      rw [invertLoop, invertLoop_len_difference rest d h,
        len_difference_builder, len_difference]
      simp only [Op.len_difference]
      ring
  | .Delete n :: rest, d, h, acc => by
      rw [srcLen] at h
      have hn : n ≤ d.length := by omega
      have h' : srcLen rest ≤ (d.drop n).length := by
        simp only [List.length_drop]; omega
      rw [invertLoop, invertLoop_len_difference rest (d.drop n) h',
        len_difference_builder, len_difference]
      simp only [Op.len_difference]
      have : ((d.take n).length : Int) = n := by simp [List.length_take]; omega
      rw [this]
      ring

theorem applyGo_length :
    ∀ {l : TextOperation} {doc out rem : List Char},
      applyGo l doc = .ok (out, rem) →
      (out.length : Int) = (doc.length : Int) - rem.length + len_difference l
  | [], doc, out, rem, h => by
      rw [applyGo_nil_eq] at h
      cases h
      rw [len_difference]
      simp
  | .Retain n :: rest, doc, out, rem, h => by
      obtain ⟨hn, t₁, h₁, rfl⟩ := applyGo_Retain_ok.mp h
      have ih := applyGo_length h₁
      rw [len_difference, Op.len_difference]
      simp only [List.length_append, List.length_take, List.length_drop] at *
      push_cast at *
      omega
  | .Insert s :: rest, doc, out, rem, h => by
      obtain ⟨t₁, h₁, rfl⟩ := applyGo_Insert_ok.mp h
      have ih := applyGo_length h₁
      rw [len_difference, Op.len_difference]
      simp only [List.length_append] at *
      push_cast at *
      omega
  | .Delete n :: rest, doc, out, rem, h => by
      obtain ⟨hn, h₁⟩ := applyGo_Delete_ok.mp h
      have ih := applyGo_length h₁
      rw [len_difference, Op.len_difference]
      simp only [List.length_drop] at *
      push_cast at *
      omega

/-- Modelled from the spec (§6: invert's failure column is "LengthMismatch
(propagated from reading document)"; C9 reads this as an error whenever the
sequence reads past the end of the document, i.e. whenever the cumulative
`Retain`+`Delete` cursor would exceed the document length): an
error-checking variant of the `invert` loop, stated for comparison with the
source's `invert`, which clamps document reads instead of failing. -/
def invertCheckedLoop : TextOperation → TextOperation → List Char → Except OTError TextOperation
  | acc, [], _ => .ok acc
  | acc, .Retain n :: rest, doc =>
      if n ≤ doc.length then invertCheckedLoop (append acc (.Retain n)) rest (doc.drop n)
      else .error .applyTooLong
  | acc, .Insert s :: rest, doc => invertCheckedLoop (append acc (.Delete s.length)) rest doc
  | acc, .Delete n :: rest, doc =>
      if n ≤ doc.length then
        invertCheckedLoop (append acc (.Insert (doc.take n))) rest (doc.drop n)
      else .error .applyTooLong

/-- Modelled from the spec: the error-checking invert C9 describes. -/
def invertChecked (l : TextOperation) (doc : List Char) : Except OTError TextOperation :=
  invertCheckedLoop [] l doc

theorem invertCheckedLoop_eq_invertLoop :
    ∀ (l : TextOperation) (d : List Char) (acc : TextOperation),
      invertCheckedLoop acc l d = .ok (invertLoop acc l d) ↔ srcLen l ≤ d.length
  | [], d, acc => ⟨fun _ => Nat.zero_le _, fun _ => rfl⟩
  | .Retain n :: rest, d, acc => by
      rw [invertCheckedLoop, invertLoop, srcLen]
      by_cases hn : n ≤ d.length
      · rw [if_pos hn, invertCheckedLoop_eq_invertLoop rest (d.drop n)]
        simp only [List.length_drop]
        omega
      · rw [if_neg hn]
        constructor
        · intro h; exact absurd h (by simp)
        · intro h'; exact absurd h' (by omega)
  | .Insert s :: rest, d, acc => by
      rw [invertCheckedLoop, invertLoop, srcLen]
      exact invertCheckedLoop_eq_invertLoop rest d _
  | .Delete n :: rest, d, acc => by
      rw [invertCheckedLoop, invertLoop, srcLen]
      by_cases hn : n ≤ d.length
      · rw [if_pos hn, invertCheckedLoop_eq_invertLoop rest (d.drop n)]
        simp only [List.length_drop]
        omega
      · rw [if_neg hn]
        constructor
        · intro h; exact absurd h (by simp)
        · intro h'; exact absurd h' (by omega)

end TextOperation

namespace TextOperation

/-- Normal form (spec §3): adjacent elements are never of the same
variant. -/
def normalized (l : TextOperation) : Prop :=
  List.Chain' (fun x y => Op.sameVariant x y = false) l

theorem Op.sameVariant_merge_right {b op : Op} (h : Op.sameVariant b op = true) (x : Op) :
    Op.sameVariant x (Op.merge b op) = Op.sameVariant x b := by
  cases x <;> cases b <;> cases op <;> simp_all [Op.sameVariant, Op.merge]

theorem normalized_builder {l : TextOperation} (h : normalized l) (op : Op) :
    normalized (append l op) := by
  by_cases hz : op.length = 0
  · rwa [append, if_pos hz]
  · rcases List.eq_nil_or_concat l with rfl | ⟨L, b, rfl⟩
    · simp [append, hz, normalized]
    · rw [List.concat_eq_append] at h ⊢
      by_cases hs : Op.sameVariant b op
      · have hc : append (L ++ [b]) op = L ++ [Op.merge b op] := by
          simp [append, hz, List.getLast?_concat, List.dropLast_concat, hs]
        rw [hc]
        rw [normalized, List.chain'_append] at h ⊢
        obtain ⟨h1, h2, h3⟩ := h
        refine ⟨h1, List.chain'_singleton _, ?_⟩
        intro x hx y hy
        rw [List.head?_cons, Option.mem_some_iff] at hy
        subst hy
        rw [Op.sameVariant_merge_right hs]
        exact h3 x hx b (by simp)
      · have hc : append (L ++ [b]) op = (L ++ [b]) ++ [op] := by
          simp [append, hz, List.getLast?_concat, List.dropLast_concat, hs]
        rw [hc]
        rw [normalized, List.chain'_append]
        refine ⟨h, List.chain'_singleton _, ?_⟩
        intro x hx y hy
        rw [List.head?_cons, Option.mem_some_iff] at hy
        subst hy
        rw [List.getLast?_concat, Option.mem_some_iff] at hx
        subst hx
        exact eq_false_of_ne_true hs

theorem normalized_foldl_builder :
    ∀ (ops : List Op) (acc : TextOperation), normalized acc →
      normalized (List.foldl append acc ops)
  | [], acc, h => h
  | op :: rest, acc, h =>
      normalized_foldl_builder rest (append acc op) (normalized_builder h op)

end TextOperation

/-- C2: Invert round-trip — for every document `D` and sequence `S` valid
against `D` (its `Retain`+`Delete` lengths sum to `len(D)`), applying
`S.invert(D)` to the result of applying `S` to `D` reproduces `D`
exactly. -/
theorem invert_round_trip (S : TextOperation) (D : List Char)
    (h : TextOperation.srcLen S = D.length) :
    ∃ out, TextOperation.apply S D = .ok out ∧
      TextOperation.apply (TextOperation.invert S D) out = .ok D := by
  obtain ⟨out, happ, hgo⟩ := TextOperation.apply_of_valid h
  refine ⟨out, happ, ?_⟩
  rw [TextOperation.apply_eq_ok]
  have := TextOperation.invertLoop_applyGo S D out hgo [] out [] (by simp)
  simpa [TextOperation.invert] using this

/-- Witness for C2 at `S = [Delete(5)]`, `D = "hello"` (spec scenario 2). -/
theorem invert_round_trip_witness :
    TextOperation.srcLen [Op.Delete 5] = (['h', 'e', 'l', 'l', 'o'] : List Char).length ∧
      ∃ out, TextOperation.apply [Op.Delete 5] ['h', 'e', 'l', 'l', 'o'] = .ok out ∧
        TextOperation.apply
          (TextOperation.invert [Op.Delete 5] ['h', 'e', 'l', 'l', 'o']) out =
          .ok ['h', 'e', 'l', 'l', 'o'] :=
  ⟨by decide, invert_round_trip [Op.Delete 5] ['h', 'e', 'l', 'l', 'o'] (by decide)⟩

/-- C4: Length accounting — whenever applying `S` to `D` succeeds, the
output length is `len(D)` plus the sum of `len_difference` over the ops of
`S`. -/
theorem length_accounting (S : TextOperation) (D out : List Char)
    (h : TextOperation.apply S D = .ok out) :
    (out.length : Int) = (D.length : Int) + TextOperation.len_difference S := by
  rw [TextOperation.apply_eq_ok] at h
  have := TextOperation.applyGo_length h
  simpa using this

/-- Witness for C4 at `S = [Retain(5), Insert(" world")]`, `D = "hello"`
(spec scenario 1). -/
theorem length_accounting_witness :
    TextOperation.apply [Op.Retain 5, Op.Insert [' ', 'w', 'o', 'r', 'l', 'd']]
        ['h', 'e', 'l', 'l', 'o'] =
      .ok ['h', 'e', 'l', 'l', 'o', ' ', 'w', 'o', 'r', 'l', 'd'] ∧
    ((['h', 'e', 'l', 'l', 'o', ' ', 'w', 'o', 'r', 'l', 'd'] : List Char).length : Int) =
      (((['h', 'e', 'l', 'l', 'o'] : List Char).length : Int)) +
        TextOperation.len_difference [Op.Retain 5, Op.Insert [' ', 'w', 'o', 'r', 'l', 'd']] :=
  ⟨rfl, length_accounting _ _ _ rfl⟩

/-- C6: at the failing input `S = [Retain(10)]`, `D = "hi"` (spec scenario
5), the `Retain` overflow branch of `__call__` raises the bare `Exception`
of line 118, which is not an `IncompatibleOperationError` — contradicting
the claim that `IncompatibleOperation` is the single error kind apply can
raise. -/
theorem apply_retain_overflow_plain_exception :
    TextOperation.apply [Op.Retain 10] ['h', 'i'] = .error .plainTooLong ∧
      OTError.isIncompatibleOperationError .plainTooLong = false := by
  constructor <;> rfl

/-- C9 counterexample: `S = [Delete(5)]` reads 5 characters from the empty
document (`srcLen S > len(D)`), yet `invert` returns the sequence `[]`
normally instead of raising — the Python slice clamps.  The spec-modelled
checking variant `invertChecked` does fail there. -/
theorem invert_overlong_no_error :
    ([] : List Char).length < TextOperation.srcLen [Op.Delete 5] ∧
      TextOperation.invert [Op.Delete 5] [] = [] ∧
      TextOperation.invertChecked [Op.Delete 5] [] = .error .applyTooLong :=
  ⟨by decide, rfl, rfl⟩

/-- C9 (amended): `invert` never raises; document reads clamp at the end of
`D`.  The error-checking invert the spec describes agrees with the code's
`invert` exactly on the sequences that do not read past the end of `D`
(`srcLen S ≤ len(D)`), and fails precisely on the sequences C9 says should
raise. -/
theorem invert_checked_agreement (S : TextOperation) (D : List Char) :
    TextOperation.invertChecked S D = .ok (TextOperation.invert S D) ↔
      TextOperation.srcLen S ≤ D.length :=
  TextOperation.invertCheckedLoop_eq_invertLoop S D []

/-- C10: for every sequence `S` valid against `D`, the inverse's
`len_difference` is the negation of `S`'s. -/
theorem invert_len_difference (S : TextOperation) (D : List Char)
    (h : TextOperation.srcLen S = D.length) :
    TextOperation.len_difference (TextOperation.invert S D) =
      - TextOperation.len_difference S := by
  have := TextOperation.invertLoop_len_difference S D (le_of_eq h) []
  rw [TextOperation.invert, this, TextOperation.len_difference]
  ring

/-- Witness for C10 at `S = [Retain(2), Delete(3), Insert("xy")]`,
`D = "hello"`. -/
theorem invert_len_difference_witness :
    TextOperation.srcLen [Op.Retain 2, Op.Delete 3, Op.Insert ['x', 'y']] =
        (['h', 'e', 'l', 'l', 'o'] : List Char).length ∧
      TextOperation.len_difference
          (TextOperation.invert [Op.Retain 2, Op.Delete 3, Op.Insert ['x', 'y']]
            ['h', 'e', 'l', 'l', 'o']) =
        - TextOperation.len_difference [Op.Retain 2, Op.Delete 3, Op.Insert ['x', 'y']] :=
  ⟨by decide,
    invert_len_difference [Op.Retain 2, Op.Delete 3, Op.Insert ['x', 'y']]
      ['h', 'e', 'l', 'l', 'o'] (by decide)⟩

/-- C8: the builder `append` keeps sequences in normal form — a zero-length
op is dropped; an op of the same variant as the last element replaces it by
their merge; sequences built from the empty sequence by `append` calls
never have two adjacent elements of the same variant; and a merged
element's length is the sum of the two ops' lengths. -/
theorem append_normal_form :
    (∀ (l : TextOperation) (op : Op), op.length = 0 →
        TextOperation.append l op = l) ∧
    (∀ (init : TextOperation) (last op : Op), Op.sameVariant last op = true →
        op.length ≠ 0 →
        TextOperation.append (init ++ [last]) op = init ++ [Op.merge last op]) ∧
    (∀ ops : List Op,
        TextOperation.normalized (List.foldl TextOperation.append [] ops)) ∧
    (∀ a b : Op, Op.sameVariant a b = true →
        (Op.merge a b).length = a.length + b.length) := by
  refine ⟨?_, ?_, ?_, ?_⟩
  · intro l op hz
    rw [TextOperation.append, if_pos hz]
  · intro init last op hs hz
    simp [TextOperation.append, hz, List.getLast?_concat, List.dropLast_concat, hs]
  · intro ops
    exact TextOperation.normalized_foldl_builder ops [] (by simp [TextOperation.normalized])
  · intro a b h
    exact TextOperation.Op.length_merge h

/-- Witness for C8: a zero-length append is dropped; a same-variant append
merges; a built sequence is normalized; merged lengths add. -/
theorem append_normal_form_witness :
    ((Op.Insert []).length = 0 ∧
        TextOperation.append [Op.Retain 2] (Op.Insert []) = [Op.Retain 2]) ∧
      (Op.sameVariant (Op.Retain 2) (Op.Retain 3) = true ∧
        TextOperation.append ([Op.Insert ['x']] ++ [Op.Retain 2]) (Op.Retain 3) =
          [Op.Insert ['x']] ++ [Op.merge (Op.Retain 2) (Op.Retain 3)]) ∧
      TextOperation.normalized
          (List.foldl TextOperation.append [] [Op.Retain 1, Op.Retain 2, Op.Insert ['a']]) ∧
      (Op.merge (Op.Retain 2) (Op.Retain 3)).length =
        (Op.Retain 2).length + (Op.Retain 3).length :=
  ⟨⟨by decide, append_normal_form.1 [Op.Retain 2] (Op.Insert []) (by decide)⟩,
    ⟨by decide,
      append_normal_form.2.1 [Op.Insert ['x']] (Op.Retain 2) (Op.Retain 3)
        (by decide) (by decide)⟩,
    append_normal_form.2.2.1 [Op.Retain 1, Op.Retain 2, Op.Insert ['a']],
    append_normal_form.2.2.2 (Op.Retain 2) (Op.Retain 3) (by decide)⟩

namespace TextOperation

theorem composeLoop_nil_nil (acc : TextOperation) : composeLoop acc [] [] = .ok acc := by
  rw [composeLoop]

theorem composeLoop_delete (acc : TextOperation) (n : Nat) (as lb : TextOperation) :
    composeLoop acc (.Delete n :: as) lb = composeLoop (append acc (.Delete n)) as lb := by
  rw [composeLoop]

theorem composeLoop_insert_nil_a (acc : TextOperation) (s : List Char) (bs : TextOperation) :
    composeLoop acc [] (.Insert s :: bs) = composeLoop (append acc (.Insert s)) [] bs := by
  rw [composeLoop] <;> exact fun n as h => nomatch h

theorem composeLoop_insert_retain_a (acc : TextOperation) (k : Nat) (as : TextOperation)
    (s : List Char) (bs : TextOperation) :
    composeLoop acc (.Retain k :: as) (.Insert s :: bs) =
      composeLoop (append acc (.Insert s)) (.Retain k :: as) bs := by
  rw [composeLoop] <;> simp

theorem composeLoop_insert_insert_a (acc : TextOperation) (t : List Char) (as : TextOperation)
    (s : List Char) (bs : TextOperation) :
    composeLoop acc (.Insert t :: as) (.Insert s :: bs) =
      composeLoop (append acc (.Insert s)) (.Insert t :: as) bs := by
  rw [composeLoop] <;> simp

theorem composeLoop_nil_retain (acc : TextOperation) (m : Nat) (bs : TextOperation) :
    composeLoop acc [] (.Retain m :: bs) = .error .composeTooShort := by
  rw [composeLoop] <;> simp

theorem composeLoop_nil_delete (acc : TextOperation) (m : Nat) (bs : TextOperation) :
    composeLoop acc [] (.Delete m :: bs) = .error .composeTooShort := by
  rw [composeLoop] <;> simp

theorem composeLoop_retain_nil (acc : TextOperation) (n : Nat) (as : TextOperation) :
    composeLoop acc (.Retain n :: as) [] = .error .composeTooLong := by
  rw [composeLoop] <;> simp

theorem composeLoop_insert_nil_b (acc : TextOperation) (s : List Char) (as : TextOperation) :
    composeLoop acc (.Insert s :: as) [] = .error .composeTooLong := by
  rw [composeLoop] <;> simp

theorem composeLoop_RR (acc : TextOperation) (n : Nat) (as : TextOperation)
    (m : Nat) (bs : TextOperation) :
    composeLoop acc (.Retain n :: as) (.Retain m :: bs) =
      if n = m then composeLoop (append acc (.Retain (min n m))) as bs
      else if m < n then
        composeLoop (append acc (.Retain (min n m))) (.Retain (n - m) :: as) bs
      else composeLoop (append acc (.Retain (min n m))) as (.Retain (m - n) :: bs) := by
  rw [composeLoop] <;> simp [Op.length, Op.shorten]

theorem composeLoop_IR (acc : TextOperation) (s : List Char) (as : TextOperation)
    (m : Nat) (bs : TextOperation) :
    composeLoop acc (.Insert s :: as) (.Retain m :: bs) =
      if s.length = m then
        composeLoop (append acc (.Insert (s.take (min s.length m)))) as bs
      else if m < s.length then
        composeLoop (append acc (.Insert (s.take (min s.length m))))
          (.Insert (s.drop m) :: as) bs
      else
        composeLoop (append acc (.Insert (s.take (min s.length m)))) as
          (.Retain (m - s.length) :: bs) := by
  rw [composeLoop] <;> simp [Op.length, Op.shorten]

theorem composeLoop_RD (acc : TextOperation) (n : Nat) (as : TextOperation)
    (m : Nat) (bs : TextOperation) :
    composeLoop acc (.Retain n :: as) (.Delete m :: bs) =
      if n = m then composeLoop (append acc (.Delete (min n m))) as bs
      else if m < n then
        composeLoop (append acc (.Delete (min n m))) (.Retain (n - m) :: as) bs
      else composeLoop (append acc (.Delete (min n m))) as (.Delete (m - n) :: bs) := by
  rw [composeLoop] <;> simp [Op.length, Op.shorten]

theorem composeLoop_ID (acc : TextOperation) (s : List Char) (as : TextOperation)
    (m : Nat) (bs : TextOperation) :
    composeLoop acc (.Insert s :: as) (.Delete m :: bs) =
      if s.length = m then composeLoop acc as bs
      else if m < s.length then composeLoop acc (.Insert (s.drop m) :: as) bs
      else composeLoop acc as (.Delete (m - s.length) :: bs) := by
  rw [composeLoop] <;> simp [Op.length, Op.shorten]

theorem wellFormed_cons {op : Op} {rest : TextOperation} :
    wellFormed (op :: rest) ↔ 0 < op.length ∧ wellFormed rest := by
  simp [wellFormed]

theorem wellFormed_nil : wellFormed ([] : TextOperation) := by
  simp [wellFormed]

end TextOperation

namespace TextOperation

theorem applyGo_nil_ok {doc t rem : List Char}
    (h : applyGo ([] : TextOperation) doc = .ok (t, rem)) : t = [] ∧ doc = rem := by
  rw [applyGo_nil_eq] at h
  cases h
  exact ⟨rfl, rfl⟩

end TextOperation

namespace TextOperation

theorem composeLoop_correct :
    ∀ (N : Nat) (la lb : TextOperation), la.length + lb.length ≤ N →
      ∀ (acc : TextOperation) (d t u X pre : List Char),
        wellFormed la → wellFormed lb →
        applyGo la d = .ok (t, []) →
        applyGo lb t = .ok (u, []) →
        applyGo acc X = .ok (pre, d) →
        ∃ c, composeLoop acc la lb = .ok c ∧ applyGo c X = .ok (pre ++ u, []) := by
  intro N
  induction N with
  | zero =>
      intro la lb hN acc d t u X pre wfa wfb ha hb hacc
      have hla : la = [] := List.eq_nil_of_length_eq_zero (by omega)
      have hlb : lb = [] := List.eq_nil_of_length_eq_zero (by omega)
      subst hla; subst hlb
      obtain ⟨rfl, rfl⟩ := applyGo_nil_ok ha
      obtain ⟨rfl, -⟩ := applyGo_nil_ok hb
      exact ⟨acc, composeLoop_nil_nil acc, by simpa using hacc⟩
  | succ N ih =>
      intro la lb hN acc d t u X pre wfa wfb ha hb hacc
      cases la with
      | nil =>
          obtain ⟨rfl, rfl⟩ := applyGo_nil_ok ha
          cases lb with
          | nil =>
              obtain ⟨rfl, -⟩ := applyGo_nil_ok hb
              exact ⟨acc, composeLoop_nil_nil acc, by simpa using hacc⟩
          | cons b bs =>
              rw [wellFormed_cons] at wfb
              obtain ⟨hbpos, wfbs⟩ := wfb
              cases b with
              | Insert s =>
                  obtain ⟨u₁, hb₁, rfl⟩ := applyGo_Insert_ok.mp hb
                  have hacc' := applyGo_builder_Insert s hacc
                  have hN' : ([] : TextOperation).length + bs.length ≤ N := by
                    simp only [List.length_cons, List.length_nil] at hN ⊢; omega
                  obtain ⟨c, hc, happ⟩ := ih [] bs hN' _ [] [] u₁ X (pre ++ s)
                    wellFormed_nil wfbs (applyGo_nil_eq []) hb₁ hacc'
                  refine ⟨c, ?_, ?_⟩
                  · rw [composeLoop_insert_nil_a]; exact hc
                  · rw [← List.append_assoc]; exact happ
              | Retain m =>
                  obtain ⟨hm, -, -, -⟩ := applyGo_Retain_ok.mp hb
                  simp only [List.length_nil, Op.length] at hm hbpos
                  omega
              | Delete m =>
                  obtain ⟨hm, -⟩ := applyGo_Delete_ok.mp hb
                  simp only [List.length_nil, Op.length] at hm hbpos
                  omega
      | cons a as =>
          cases a with
          | Delete n =>
              rw [wellFormed_cons] at wfa
              obtain ⟨-, wfas⟩ := wfa
              obtain ⟨hn, ha₁⟩ := applyGo_Delete_ok.mp ha
              have hacc' := applyGo_builder_Delete hacc hn
              have hN' : as.length + lb.length ≤ N := by
                simp only [List.length_cons] at hN; omega
              obtain ⟨c, hc, happ⟩ := ih as lb hN' _ (d.drop n) t u X pre
                wfas wfb ha₁ hb hacc'
              exact ⟨c, by rw [composeLoop_delete]; exact hc, happ⟩
          | Retain n =>
              rw [wellFormed_cons] at wfa
              obtain ⟨hnpos, wfas⟩ := wfa
              obtain ⟨hn, t₁, ha₁, rfl⟩ := applyGo_Retain_ok.mp ha
              simp only [Op.length] at hnpos
              have htn : (d.take n).length = n := by rw [List.length_take]; omega
              cases lb with
              | nil =>
                  obtain ⟨-, habs⟩ := applyGo_nil_ok hb
                  rw [List.append_eq_nil] at habs
                  rw [habs.1] at htn
                  simp at htn
                  omega
              | cons b bs =>
                  rw [wellFormed_cons] at wfb
                  obtain ⟨hbpos, wfbs⟩ := wfb
                  cases b with
                  | Insert s =>
                      obtain ⟨u₁, hb₁, rfl⟩ := applyGo_Insert_ok.mp hb
                      have hacc' := applyGo_builder_Insert s hacc
                      have hN' : (Op.Retain n :: as).length + bs.length ≤ N := by
                        simp only [List.length_cons] at hN ⊢; omega
                      obtain ⟨c, hc, happ⟩ := ih _ bs hN' _ d _ u₁ X (pre ++ s)
                        (wellFormed_cons.mpr ⟨hnpos, wfas⟩) wfbs ha hb₁ hacc'
                      refine ⟨c, ?_, ?_⟩
                      · rw [composeLoop_insert_retain_a]; exact hc
                      · rw [← List.append_assoc]; exact happ
                  | Retain m =>
                      simp only [Op.length] at hbpos
                      obtain ⟨hm, u₁, hb₁, rfl⟩ := applyGo_Retain_ok.mp hb
                      rcases Nat.lt_trichotomy n m with hnm | rfl | hnm
                      · -- n < m : a consumed, b shortened
                        have hmin : min n m = n := by omega
                        have hacc' := applyGo_builder_Retain hacc hn
                        have hmt : m - n ≤ t₁.length := by
                          rw [List.length_append, htn] at hm; omega
                        have hdropm : (d.take n ++ t₁).drop m = t₁.drop (m - n) := by
                          rw [List.drop_append_eq_append_drop, htn,
                            List.drop_eq_nil_of_le (by rw [htn]; omega), List.nil_append]
                        have htakem : (d.take n ++ t₁).take m = d.take n ++ t₁.take (m - n) := by
                          rw [List.take_append_eq_append_take, htn,
                            List.take_of_length_le (by rw [htn]; omega)]
                        rw [hdropm] at hb₁
                        have hb' : applyGo (Op.Retain (m - n) :: bs) t₁ =
                            .ok (t₁.take (m - n) ++ u₁, []) :=
                          applyGo_Retain_ok.mpr ⟨hmt, u₁, hb₁, rfl⟩
                        have hN' : as.length + (Op.Retain (m - n) :: bs).length ≤ N := by
                          simp only [List.length_cons] at hN ⊢; omega
                        obtain ⟨c, hc, happ⟩ := ih as _ hN' _ (d.drop n) t₁ _ X (pre ++ d.take n)
                          wfas (wellFormed_cons.mpr ⟨by simp only [Op.length]; omega, wfbs⟩)
                          ha₁ hb' hacc'
                        refine ⟨c, ?_, ?_⟩
                        · rw [composeLoop_RR, if_neg (by omega), if_neg (by omega), hmin]
                          exact hc
                        · rw [htakem]
                          simpa [List.append_assoc] using happ
                      · -- n = m : both consumed
                        have htake : (d.take n ++ t₁).take n = d.take n := List.take_left' htn
                        have hdrop : (d.take n ++ t₁).drop n = t₁ := List.drop_left' htn
                        have hacc' := applyGo_builder_Retain hacc hn
                        have hb₁' : applyGo bs t₁ = .ok (u₁, []) := by rwa [hdrop] at hb₁
                        have hN' : as.length + bs.length ≤ N := by
                          simp only [List.length_cons] at hN; omega
                        obtain ⟨c, hc, happ⟩ := ih as bs hN' _ (d.drop n) t₁ u₁ X
                          (pre ++ d.take n) wfas wfbs ha₁ hb₁' hacc'
                        refine ⟨c, ?_, ?_⟩
                        · rw [composeLoop_RR, if_pos rfl, Nat.min_self]; exact hc
                        · rw [htake]
                          simpa [List.append_assoc] using happ
                      · -- m < n : b consumed, a shortened
                        have hmin : min n m = m := by omega
                        have hmd : m ≤ d.length := by omega
                        have hacc' := applyGo_builder_Retain hacc hmd
                        have htakem : (d.take n ++ t₁).take m = d.take m := by
                          have h1 : m ⊓ n = m := by omega
                          have h2 : m - n = 0 := by omega
                          rw [List.take_append_eq_append_take, List.take_take, htn, h1, h2,
                            List.take_zero, List.append_nil]
                        have hdropm : (d.take n ++ t₁).drop m =
                            (d.drop m).take (n - m) ++ t₁ := by
                          have h2 : m - n = 0 := by omega
                          rw [List.drop_append_eq_append_drop, htn, h2, List.drop_zero,
                            List.drop_take]
                        have hnm' : n - m ≤ (d.drop m).length := by
                          rw [List.length_drop]; omega
                        have ha' : applyGo (Op.Retain (n - m) :: as) (d.drop m) =
                            .ok ((d.drop m).take (n - m) ++ t₁, []) := by
                          refine applyGo_Retain_ok.mpr ⟨hnm', t₁, ?_, rfl⟩
                          have h3 : (d.drop m).drop (n - m) = d.drop n := by
                            rw [List.drop_drop]
                            congr 1
                            omega
                          rw [h3]
                          exact ha₁
                        rw [hdropm] at hb₁
                        have hN' : (Op.Retain (n - m) :: as).length + bs.length ≤ N := by
                          simp only [List.length_cons] at hN ⊢; omega
                        obtain ⟨c, hc, happ⟩ := ih _ bs hN' _ (d.drop m) _ u₁ X
                          (pre ++ d.take m)
                          (wellFormed_cons.mpr ⟨by simp only [Op.length]; omega, wfas⟩)
                          wfbs ha' hb₁ hacc'
                        refine ⟨c, ?_, ?_⟩
                        · rw [composeLoop_RR, if_neg (by omega), if_pos hnm, hmin]
                          exact hc
                        · rw [htakem]
                          simpa [List.append_assoc] using happ
                  | Delete m =>
                      simp only [Op.length] at hbpos
                      obtain ⟨hm, hb₁⟩ := applyGo_Delete_ok.mp hb
                      rcases Nat.lt_trichotomy n m with hnm | rfl | hnm
                      · -- n < m : a consumed, b shortened
                        have hmin : min n m = n := by omega
                        have hacc' := applyGo_builder_Delete hacc hn
                        have hmt : m - n ≤ t₁.length := by
                          rw [List.length_append, htn] at hm; omega
                        have hdropm : (d.take n ++ t₁).drop m = t₁.drop (m - n) := by
                          rw [List.drop_append_eq_append_drop, htn,
                            List.drop_eq_nil_of_le (by rw [htn]; omega), List.nil_append]
                        rw [hdropm] at hb₁
                        have hb' : applyGo (Op.Delete (m - n) :: bs) t₁ = .ok (u, []) :=
                          applyGo_Delete_ok.mpr ⟨hmt, hb₁⟩
                        have hN' : as.length + (Op.Delete (m - n) :: bs).length ≤ N := by
                          simp only [List.length_cons] at hN ⊢; omega
                        obtain ⟨c, hc, happ⟩ := ih as _ hN' _ (d.drop n) t₁ u X pre
                          wfas (wellFormed_cons.mpr ⟨by simp only [Op.length]; omega, wfbs⟩)
                          ha₁ hb' hacc'
                        refine ⟨c, ?_, happ⟩
                        rw [composeLoop_RD, if_neg (by omega), if_neg (by omega), hmin]
                        exact hc
                      · -- n = m
                        have hdrop : (d.take n ++ t₁).drop n = t₁ := List.drop_left' htn
                        have hacc' := applyGo_builder_Delete hacc hn
                        have hb₁' : applyGo bs t₁ = .ok (u, []) := by rwa [hdrop] at hb₁
                        have hN' : as.length + bs.length ≤ N := by
                          simp only [List.length_cons] at hN; omega
                        obtain ⟨c, hc, happ⟩ := ih as bs hN' _ (d.drop n) t₁ u X pre
                          wfas wfbs ha₁ hb₁' hacc'
                        refine ⟨c, ?_, happ⟩
                        rw [composeLoop_RD, if_pos rfl, Nat.min_self]
                        exact hc
                      · -- m < n
                        have hmin : min n m = m := by omega
                        have hmd : m ≤ d.length := by omega
                        have hacc' := applyGo_builder_Delete hacc hmd
                        have hdropm : (d.take n ++ t₁).drop m =
                            (d.drop m).take (n - m) ++ t₁ := by
                          have h2 : m - n = 0 := by omega
                          rw [List.drop_append_eq_append_drop, htn, h2, List.drop_zero,
                            List.drop_take]
                        have hnm' : n - m ≤ (d.drop m).length := by
                          rw [List.length_drop]; omega
                        have ha' : applyGo (Op.Retain (n - m) :: as) (d.drop m) =
                            .ok ((d.drop m).take (n - m) ++ t₁, []) := by
                          refine applyGo_Retain_ok.mpr ⟨hnm', t₁, ?_, rfl⟩
                          have h3 : (d.drop m).drop (n - m) = d.drop n := by
                            rw [List.drop_drop]
                            congr 1
                            omega
                          rw [h3]
                          exact ha₁
                        rw [hdropm] at hb₁
                        have hN' : (Op.Retain (n - m) :: as).length + bs.length ≤ N := by
                          simp only [List.length_cons] at hN ⊢; omega
                        obtain ⟨c, hc, happ⟩ := ih _ bs hN' _ (d.drop m) _ u X pre
                          (wellFormed_cons.mpr ⟨by simp only [Op.length]; omega, wfas⟩)
                          wfbs ha' hb₁ hacc'
                        refine ⟨c, ?_, happ⟩
                        rw [composeLoop_RD, if_neg (by omega), if_pos hnm, hmin]
                        exact hc
          | Insert s =>
              rw [wellFormed_cons] at wfa
              obtain ⟨hspos, wfas⟩ := wfa
              simp only [Op.length] at hspos
              obtain ⟨t₁, ha₁, rfl⟩ := applyGo_Insert_ok.mp ha
              cases lb with
              | nil =>
                  obtain ⟨-, habs⟩ := applyGo_nil_ok hb
                  rw [List.append_eq_nil] at habs
                  rw [habs.1] at hspos
                  simp at hspos
              | cons b bs =>
                  rw [wellFormed_cons] at wfb
                  obtain ⟨hbpos, wfbs⟩ := wfb
                  cases b with
                  | Insert sb =>
                      obtain ⟨u₁, hb₁, rfl⟩ := applyGo_Insert_ok.mp hb
                      have hacc' := applyGo_builder_Insert sb hacc
                      have hN' : (Op.Insert s :: as).length + bs.length ≤ N := by
                        simp only [List.length_cons] at hN ⊢; omega
                      obtain ⟨c, hc, happ⟩ := ih _ bs hN' _ d _ u₁ X (pre ++ sb)
                        (wellFormed_cons.mpr ⟨by simp only [Op.length]; omega, wfas⟩)
                        wfbs ha hb₁ hacc'
                      refine ⟨c, ?_, ?_⟩
                      · rw [composeLoop_insert_insert_a]; exact hc
                      · rw [← List.append_assoc]; exact happ
                  | Retain m =>
                      simp only [Op.length] at hbpos
                      obtain ⟨hm, u₁, hb₁, rfl⟩ := applyGo_Retain_ok.mp hb
                      rcases Nat.lt_trichotomy s.length m with hnm | heq | hnm
                      · -- |s| < m : a consumed, b shortened
                        have hmin : min s.length m = s.length := by omega
                        have hstake : s.take (min s.length m) = s := by
                          rw [hmin, List.take_length]
                        have hacc' := applyGo_builder_Insert s hacc
                        have hmt : m - s.length ≤ t₁.length := by
                          rw [List.length_append] at hm; omega
                        have hdropm : (s ++ t₁).drop m = t₁.drop (m - s.length) := by
                          rw [List.drop_append_eq_append_drop,
                            List.drop_eq_nil_of_le (by omega), List.nil_append]
                        have htakem : (s ++ t₁).take m = s ++ t₁.take (m - s.length) := by
                          rw [List.take_append_eq_append_take,
                            List.take_of_length_le (by omega)]
                        rw [hdropm] at hb₁
                        have hb' : applyGo (Op.Retain (m - s.length) :: bs) t₁ =
                            .ok (t₁.take (m - s.length) ++ u₁, []) :=
                          applyGo_Retain_ok.mpr ⟨hmt, u₁, hb₁, rfl⟩
                        have hN' : as.length + (Op.Retain (m - s.length) :: bs).length ≤ N := by
                          simp only [List.length_cons] at hN ⊢; omega
                        obtain ⟨c, hc, happ⟩ := ih as _ hN' _ d t₁ _ X (pre ++ s)
                          wfas (wellFormed_cons.mpr ⟨by simp only [Op.length]; omega, wfbs⟩)
                          ha₁ hb' hacc'
                        refine ⟨c, ?_, ?_⟩
                        · rw [composeLoop_IR, if_neg (by omega), if_neg (by omega), hstake]
                          exact hc
                        · rw [htakem]
                          simpa [List.append_assoc] using happ
                      · -- |s| = m : both consumed
                        have htake : (s ++ t₁).take m = s := List.take_left' heq
                        have hdrop : (s ++ t₁).drop m = t₁ := List.drop_left' heq
                        have hstake : s.take (min s.length m) = s := by
                          rw [heq, Nat.min_self, ← heq, List.take_length]
                        have hacc' := applyGo_builder_Insert s hacc
                        have hb₁' : applyGo bs t₁ = .ok (u₁, []) := by rwa [hdrop] at hb₁
                        have hN' : as.length + bs.length ≤ N := by
                          simp only [List.length_cons] at hN; omega
                        obtain ⟨c, hc, happ⟩ := ih as bs hN' _ d t₁ u₁ X (pre ++ s)
                          wfas wfbs ha₁ hb₁' hacc'
                        refine ⟨c, ?_, ?_⟩
                        · rw [composeLoop_IR, if_pos heq, hstake]; exact hc
                        · rw [htake]
                          simpa [List.append_assoc] using happ
                      · -- m < |s| : b consumed, a shortened
                        have hmin : min s.length m = m := by omega
                        have hstake : s.take (min s.length m) = s.take m := by rw [hmin]
                        have hacc' := applyGo_builder_Insert (s.take m) hacc
                        have htakem : (s ++ t₁).take m = s.take m := by
                          have h2 : m - s.length = 0 := by omega
                          rw [List.take_append_eq_append_take, h2, List.take_zero,
                            List.append_nil]
                        have hdropm : (s ++ t₁).drop m = s.drop m ++ t₁ := by
                          have h2 : m - s.length = 0 := by omega
                          rw [List.drop_append_eq_append_drop, h2, List.drop_zero]
                        have ha' : applyGo (Op.Insert (s.drop m) :: as) d =
                            .ok (s.drop m ++ t₁, []) :=
                          applyGo_Insert_ok.mpr ⟨t₁, ha₁, rfl⟩
                        rw [hdropm] at hb₁
                        have hN' : (Op.Insert (s.drop m) :: as).length + bs.length ≤ N := by
                          simp only [List.length_cons] at hN ⊢; omega
                        obtain ⟨c, hc, happ⟩ := ih _ bs hN' _ d _ u₁ X (pre ++ s.take m)
                          (wellFormed_cons.mpr
                            ⟨by simp only [Op.length, List.length_drop]; omega, wfas⟩)
                          wfbs ha' hb₁ hacc'
                        refine ⟨c, ?_, ?_⟩
                        · rw [composeLoop_IR, if_neg (by omega), if_pos hnm, hstake]
                          exact hc
                        · rw [htakem]
                          simpa [List.append_assoc] using happ
                  | Delete m =>
                      simp only [Op.length] at hbpos
                      obtain ⟨hm, hb₁⟩ := applyGo_Delete_ok.mp hb
                      rcases Nat.lt_trichotomy s.length m with hnm | heq | hnm
                      · -- |s| < m : a consumed, b shortened
                        have hmt : m - s.length ≤ t₁.length := by
                          rw [List.length_append] at hm; omega
                        have hdropm : (s ++ t₁).drop m = t₁.drop (m - s.length) := by
                          rw [List.drop_append_eq_append_drop,
                            List.drop_eq_nil_of_le (by omega), List.nil_append]
                        rw [hdropm] at hb₁
                        have hb' : applyGo (Op.Delete (m - s.length) :: bs) t₁ =
                            .ok (u, []) :=
                          applyGo_Delete_ok.mpr ⟨hmt, hb₁⟩
                        have hN' : as.length + (Op.Delete (m - s.length) :: bs).length ≤ N := by
                          simp only [List.length_cons] at hN ⊢; omega
                        obtain ⟨c, hc, happ⟩ := ih as _ hN' _ d t₁ u X pre
                          wfas (wellFormed_cons.mpr ⟨by simp only [Op.length]; omega, wfbs⟩)
                          ha₁ hb' hacc
                        refine ⟨c, ?_, happ⟩
                        rw [composeLoop_ID, if_neg (by omega), if_neg (by omega)]
                        exact hc
                      · -- |s| = m
                        have hdrop : (s ++ t₁).drop m = t₁ := List.drop_left' heq
                        have hb₁' : applyGo bs t₁ = .ok (u, []) := by rwa [hdrop] at hb₁
                        have hN' : as.length + bs.length ≤ N := by
                          simp only [List.length_cons] at hN; omega
                        obtain ⟨c, hc, happ⟩ := ih as bs hN' _ d t₁ u X pre
                          wfas wfbs ha₁ hb₁' hacc
                        refine ⟨c, ?_, happ⟩
                        rw [composeLoop_ID, if_pos heq]
                        exact hc
                      · -- m < |s| : b consumed, a shortened
                        have hdropm : (s ++ t₁).drop m = s.drop m ++ t₁ := by
                          have h2 : m - s.length = 0 := by omega
                          rw [List.drop_append_eq_append_drop, h2, List.drop_zero]
                        have ha' : applyGo (Op.Insert (s.drop m) :: as) d =
                            .ok (s.drop m ++ t₁, []) :=
                          applyGo_Insert_ok.mpr ⟨t₁, ha₁, rfl⟩
                        rw [hdropm] at hb₁
                        have hN' : (Op.Insert (s.drop m) :: as).length + bs.length ≤ N := by
                          simp only [List.length_cons] at hN ⊢; omega
                        obtain ⟨c, hc, happ⟩ := ih _ bs hN' _ d _ u X pre
                          (wellFormed_cons.mpr
                            ⟨by simp only [Op.length, List.length_drop]; omega, wfas⟩)
                          wfbs ha' hb₁ hacc
                        refine ⟨c, ?_, happ⟩
                        rw [composeLoop_ID, if_neg (by omega), if_pos hnm]
                        exact hc

end TextOperation

/-- C3: Compose equivalence — for sequences of the data model (no
zero-length ops), if `S1` applies to `D` (equivalently, is valid against
`D`) and `S2` is valid against the result, then `compose(S1, S2)` succeeds
and applying it to `D` gives the same document as applying `S2` to
`S1(D)`. -/
theorem compose_equivalence (S1 S2 : TextOperation) (D D1 : List Char)
    (w1 : TextOperation.wellFormed S1) (w2 : TextOperation.wellFormed S2)
    (h1 : TextOperation.apply S1 D = .ok D1)
    (h2 : TextOperation.srcLen S2 = D1.length) :
    ∃ C D2, TextOperation.compose S1 S2 = .ok C ∧
      TextOperation.apply S2 D1 = .ok D2 ∧ TextOperation.apply C D = .ok D2 := by
  obtain ⟨D2, happ2, hgo2⟩ := TextOperation.apply_of_valid h2
  rw [TextOperation.apply_eq_ok] at h1
  obtain ⟨c, hc, hcapp⟩ := TextOperation.composeLoop_correct
    (S1.length + S2.length) S1 S2 le_rfl [] D D1 D2 D [] w1 w2 h1 hgo2 (by simp)
  refine ⟨c, D2, hc, happ2, ?_⟩
  rw [TextOperation.apply_eq_ok]
  simpa using hcapp

/-- Witness for C3 at `S1 = [Retain(2), Delete(3)]`,
`S2 = [Retain(2), Insert("!")]`, `D = "hello"` (spec scenario 4). -/
theorem compose_equivalence_witness :
    ∃ C D2,
      TextOperation.compose [Op.Retain 2, Op.Delete 3] [Op.Retain 2, Op.Insert ['!']] =
        .ok C ∧
      TextOperation.apply [Op.Retain 2, Op.Insert ['!']] ['h', 'e'] = .ok D2 ∧
      TextOperation.apply C ['h', 'e', 'l', 'l', 'o'] = .ok D2 :=
  compose_equivalence [Op.Retain 2, Op.Delete 3] [Op.Retain 2, Op.Insert ['!']]
    ['h', 'e', 'l', 'l', 'o'] ['h', 'e'] (by decide) (by decide) rfl (by decide)

/-- C7: Compose error handling — the loop ends normally exactly when both
inputs are exhausted together; it fails with
`IncompatibleOperationError("... first operation is too short")` when `A`
is exhausted while `B`'s pending element is not an `Insert`, and with
`"... first operation is too long"` when `B` is exhausted while `A`'s
pending element is not a `Delete`; and it succeeds whenever `B` (of the
data model, no zero-length ops) is valid against the output of `A`. -/
theorem compose_error_handling :
    (∀ acc : TextOperation, TextOperation.composeLoop acc [] [] = .ok acc) ∧
    (∀ (acc : TextOperation) (b : Op) (bs : TextOperation), (∀ s, b ≠ Op.Insert s) →
        TextOperation.composeLoop acc [] (b :: bs) = .error .composeTooShort) ∧
    (∀ (acc : TextOperation) (a : Op) (as : TextOperation), (∀ n, a ≠ Op.Delete n) →
        TextOperation.composeLoop acc (a :: as) [] = .error .composeTooLong) ∧
    (∀ (A B : TextOperation) (D D1 D2 : List Char),
        TextOperation.wellFormed A → TextOperation.wellFormed B →
        TextOperation.apply A D = .ok D1 → TextOperation.apply B D1 = .ok D2 →
        ∃ C, TextOperation.compose A B = .ok C ∧
          TextOperation.apply C D = .ok D2) := by
  refine ⟨TextOperation.composeLoop_nil_nil, ?_, ?_, ?_⟩
  · intro acc b bs h
    cases b with
    | Insert s => exact absurd rfl (h s)
    | Retain m => exact TextOperation.composeLoop_nil_retain acc m bs
    | Delete m => exact TextOperation.composeLoop_nil_delete acc m bs
  · intro acc a as h
    cases a with
    | Delete n => exact absurd rfl (h n)
    | Retain n => exact TextOperation.composeLoop_retain_nil acc n as
    | Insert s => exact TextOperation.composeLoop_insert_nil_b acc s as
  · intro A B D D1 D2 wA wB h1 h2
    rw [TextOperation.apply_eq_ok] at h1 h2
    obtain ⟨c, hc, hcapp⟩ := TextOperation.composeLoop_correct
      (A.length + B.length) A B le_rfl [] D D1 D2 D [] wA wB h1 h2 (by simp)
    refine ⟨c, hc, ?_⟩
    rw [TextOperation.apply_eq_ok]
    simpa using hcapp

/-- Witness for C7: the end condition, both error states, and a successful
composition on concrete inputs. -/
theorem compose_error_handling_witness :
    TextOperation.composeLoop [Op.Retain 1] [] [] = .ok [Op.Retain 1] ∧
      TextOperation.composeLoop [] [] [Op.Retain 2] = .error .composeTooShort ∧
      TextOperation.composeLoop [] [Op.Retain 2] [] = .error .composeTooLong ∧
      ∃ C, TextOperation.compose [Op.Delete 5] [Op.Insert ['h', 'i']] = .ok C ∧
        TextOperation.apply C ['h', 'e', 'l', 'l', 'o'] = .ok ['h', 'i'] :=
  ⟨compose_error_handling.1 [Op.Retain 1],
    compose_error_handling.2.1 [] (Op.Retain 2) [] (fun _ h => nomatch h),
    compose_error_handling.2.2.1 [] (Op.Retain 2) [] (fun _ h => nomatch h),
    compose_error_handling.2.2.2 [Op.Delete 5] [Op.Insert ['h', 'i']]
      ['h', 'e', 'l', 'l', 'o'] [] ['h', 'i'] (by decide) (by decide) rfl rfl⟩

namespace TextOperation

theorem transformLoop_nil_nil (accA accB : TextOperation) :
    transformLoop accA accB [] [] = some (accA, accB) := by
  rw [transformLoop]

theorem transformLoop_insert_a (accA accB : TextOperation) (s : List Char)
    (as lb : TextOperation) :
    transformLoop accA accB (.Insert s :: as) lb =
      transformLoop (append accA (.Insert s)) (append accB (.Retain s.length)) as lb := by
  rw [transformLoop]

theorem transformLoop_insert_b_nil (accA accB : TextOperation) (s : List Char)
    (bs : TextOperation) :
    transformLoop accA accB [] (.Insert s :: bs) =
      transformLoop (append accA (.Retain s.length)) (append accB (.Insert s)) [] bs := by
  rw [transformLoop] <;> exact fun n as h => nomatch h

theorem transformLoop_insert_b_retain (accA accB : TextOperation) (k : Nat)
    (as : TextOperation) (s : List Char) (bs : TextOperation) :
    transformLoop accA accB (.Retain k :: as) (.Insert s :: bs) =
      transformLoop (append accA (.Retain s.length)) (append accB (.Insert s))
        (.Retain k :: as) bs := by
  rw [transformLoop] <;> simp

theorem transformLoop_insert_b_delete (accA accB : TextOperation) (k : Nat)
    (as : TextOperation) (s : List Char) (bs : TextOperation) :
    transformLoop accA accB (.Delete k :: as) (.Insert s :: bs) =
      transformLoop (append accA (.Retain s.length)) (append accB (.Insert s))
        (.Delete k :: as) bs := by
  rw [transformLoop] <;> simp

theorem transformLoop_nil_retain (accA accB : TextOperation) (m : Nat) (bs : TextOperation) :
    transformLoop accA accB [] (.Retain m :: bs) = none := by
  rw [transformLoop] <;> simp

theorem transformLoop_nil_delete (accA accB : TextOperation) (m : Nat) (bs : TextOperation) :
    transformLoop accA accB [] (.Delete m :: bs) = none := by
  rw [transformLoop] <;> simp

theorem transformLoop_retain_nil (accA accB : TextOperation) (n : Nat) (as : TextOperation) :
    transformLoop accA accB (.Retain n :: as) [] = none := by
  rw [transformLoop] <;> simp

theorem transformLoop_delete_nil (accA accB : TextOperation) (n : Nat) (as : TextOperation) :
    transformLoop accA accB (.Delete n :: as) [] = none := by
  rw [transformLoop] <;> simp

theorem transformLoop_RR (accA accB : TextOperation) (n : Nat) (as : TextOperation)
    (m : Nat) (bs : TextOperation) :
    transformLoop accA accB (.Retain n :: as) (.Retain m :: bs) =
      if n = m then
        transformLoop (append accA (.Retain (min n m))) (append accB (.Retain (min n m)))
          as bs
      else if m < n then
        transformLoop (append accA (.Retain (min n m))) (append accB (.Retain (min n m)))
          (.Retain (n - m) :: as) bs
      else
        transformLoop (append accA (.Retain (min n m))) (append accB (.Retain (min n m)))
          as (.Retain (m - n) :: bs) := by
  rw [transformLoop] <;> simp [Op.length, Op.shorten]

theorem transformLoop_DR (accA accB : TextOperation) (n : Nat) (as : TextOperation)
    (m : Nat) (bs : TextOperation) :
    transformLoop accA accB (.Delete n :: as) (.Retain m :: bs) =
      if n = m then transformLoop (append accA (.Delete (min n m))) accB as bs
      else if m < n then
        transformLoop (append accA (.Delete (min n m))) accB (.Delete (n - m) :: as) bs
      else
        transformLoop (append accA (.Delete (min n m))) accB as (.Retain (m - n) :: bs) := by
  rw [transformLoop] <;> simp [Op.length, Op.shorten]

theorem transformLoop_RD (accA accB : TextOperation) (n : Nat) (as : TextOperation)
    (m : Nat) (bs : TextOperation) :
    transformLoop accA accB (.Retain n :: as) (.Delete m :: bs) =
      if n = m then transformLoop accA (append accB (.Delete (min n m))) as bs
      else if m < n then
        transformLoop accA (append accB (.Delete (min n m))) (.Retain (n - m) :: as) bs
      else
        transformLoop accA (append accB (.Delete (min n m))) as (.Delete (m - n) :: bs) := by
  rw [transformLoop] <;> simp [Op.length, Op.shorten]

theorem transformLoop_DD (accA accB : TextOperation) (n : Nat) (as : TextOperation)
    (m : Nat) (bs : TextOperation) :
    transformLoop accA accB (.Delete n :: as) (.Delete m :: bs) =
      if n = m then transformLoop accA accB as bs
      else if m < n then transformLoop accA accB (.Delete (n - m) :: as) bs
      else transformLoop accA accB as (.Delete (m - n) :: bs) := by
  rw [transformLoop] <;> simp [Op.length, Op.shorten]

end TextOperation

namespace TextOperation

theorem take_prefix_take {d : List Char} {n : Nat} (hn : n ≤ d.length) (x : List Char) :
    (d.take n ++ x).take n = d.take n :=
  List.take_left' (by rw [List.length_take]; omega)

theorem take_prefix_drop {d : List Char} {n : Nat} (hn : n ≤ d.length) (x : List Char) :
    (d.take n ++ x).drop n = x :=
  List.drop_left' (by rw [List.length_take]; omega)

theorem take_prefix_take_le {d : List Char} {n m : Nat} (hm : m ≤ n) (hn : n ≤ d.length)
    (x : List Char) : (d.take n ++ x).take m = d.take m := by
  have htn : (d.take n).length = n := by rw [List.length_take]; omega
  have h1 : m ⊓ n = m := by omega
  have h2 : m - n = 0 := by omega
  rw [List.take_append_eq_append_take, List.take_take, htn, h1, h2, List.take_zero,
    List.append_nil]

theorem take_prefix_drop_le {d : List Char} {n m : Nat} (hm : m ≤ n) (hn : n ≤ d.length)
    (x : List Char) : (d.take n ++ x).drop m = (d.drop m).take (n - m) ++ x := by
  have htn : (d.take n).length = n := by rw [List.length_take]; omega
  have h2 : m - n = 0 := by omega
  rw [List.drop_append_eq_append_drop, htn, h2, List.drop_zero, List.drop_take]

theorem take_prefix_take_ge {d : List Char} {n m : Nat} (hm : n ≤ m) (hn : n ≤ d.length)
    (x : List Char) : (d.take n ++ x).take m = d.take n ++ x.take (m - n) := by
  have htn : (d.take n).length = n := by rw [List.length_take]; omega
  rw [List.take_append_eq_append_take, List.take_of_length_le (by omega), htn]

theorem take_prefix_drop_ge {d : List Char} {n m : Nat} (hm : n ≤ m) (hn : n ≤ d.length)
    (x : List Char) : (d.take n ++ x).drop m = x.drop (m - n) := by
  have htn : (d.take n).length = n := by rw [List.length_take]; omega
  rw [List.drop_append_eq_append_drop, htn,
    List.drop_eq_nil_of_le (by omega), List.nil_append]

theorem drop_drop_sub {d : List Char} {n m : Nat} (hm : m ≤ n) :
    (d.drop m).drop (n - m) = d.drop n := by
  rw [List.drop_drop]
  congr 1
  omega

end TextOperation

namespace TextOperation

theorem transformLoop_correct :
    ∀ (N : Nat) (la lb : TextOperation), la.length + lb.length ≤ N →
      ∀ (accA accB : TextOperation) (d t u docA docB preA preB : List Char),
        wellFormed la → wellFormed lb → wellFormed accA → wellFormed accB →
        applyGo la d = .ok (t, []) →
        applyGo lb d = .ok (u, []) →
        applyGo accA docB = .ok (preA, u) →
        applyGo accB docA = .ok (preB, t) →
        ∃ pa pb r, transformLoop accA accB la lb = some (pa, pb) ∧
          wellFormed pa ∧ wellFormed pb ∧
          applyGo pa docB = .ok (preA ++ r, []) ∧
          applyGo pb docA = .ok (preB ++ r, []) := by
  intro N
  induction N with
  | zero =>
      intro la lb hN accA accB d t u docA docB preA preB wfa wfb wfA wfB ha hb hA hB
      have hla : la = [] := List.eq_nil_of_length_eq_zero (by omega)
      have hlb : lb = [] := List.eq_nil_of_length_eq_zero (by omega)
      subst hla; subst hlb
      obtain ⟨rfl, rfl⟩ := applyGo_nil_ok ha
      obtain ⟨rfl, -⟩ := applyGo_nil_ok hb
      exact ⟨accA, accB, [], transformLoop_nil_nil accA accB, wfA, wfB,
        by simpa using hA, by simpa using hB⟩
  | succ N ih =>
      intro la lb hN accA accB d t u docA docB preA preB wfa wfb wfA wfB ha hb hA hB
      cases la with
      | nil =>
          obtain ⟨rfl, rfl⟩ := applyGo_nil_ok ha
          cases lb with
          | nil =>
              obtain ⟨rfl, -⟩ := applyGo_nil_ok hb
              exact ⟨accA, accB, [], transformLoop_nil_nil accA accB, wfA, wfB,
                by simpa using hA, by simpa using hB⟩
          | cons b bs =>
              rw [wellFormed_cons] at wfb
              obtain ⟨hbpos, wfbs⟩ := wfb
              cases b with
              | Insert s =>
                  obtain ⟨u₁, hb₁, rfl⟩ := applyGo_Insert_ok.mp hb
                  have hA' := applyGo_builder_Retain hA
                    (show s.length ≤ (s ++ u₁).length by simp)
                  rw [List.take_left' rfl, List.drop_left' rfl] at hA'
                  have hB' := applyGo_builder_Insert s hB
                  have hN' : ([] : TextOperation).length + bs.length ≤ N := by
                    simp only [List.length_cons, List.length_nil] at hN ⊢; omega
                  obtain ⟨pa, pb, r, htr, wpa, wpb, hpa, hpb⟩ := ih [] bs hN' _ _
                    [] [] u₁ docA docB (preA ++ s) (preB ++ s)
                    wellFormed_nil wfbs (wellFormed_builder wfA _) (wellFormed_builder wfB _)
                    (applyGo_nil_eq []) hb₁ hA' hB'
                  refine ⟨pa, pb, s ++ r, ?_, wpa, wpb, ?_, ?_⟩
                  · rw [transformLoop_insert_b_nil]; exact htr
                  · rw [← List.append_assoc]; exact hpa
                  · rw [← List.append_assoc]; exact hpb
              | Retain m =>
                  simp only [Op.length] at hbpos
                  obtain ⟨hm, -, -, -⟩ := applyGo_Retain_ok.mp hb
                  simp only [List.length_nil] at hm
                  omega
              | Delete m =>
                  simp only [Op.length] at hbpos
                  obtain ⟨hm, -⟩ := applyGo_Delete_ok.mp hb
                  simp only [List.length_nil] at hm
                  omega
      | cons a as =>
          cases a with
          | Insert s =>
              rw [wellFormed_cons] at wfa
              obtain ⟨hspos, wfas⟩ := wfa
              obtain ⟨t₁, ha₁, rfl⟩ := applyGo_Insert_ok.mp ha
              have hB' := applyGo_builder_Retain hB
                (show s.length ≤ (s ++ t₁).length by simp)
              rw [List.take_left' rfl, List.drop_left' rfl] at hB'
              have hA' := applyGo_builder_Insert s hA
              have hN' : as.length + lb.length ≤ N := by
                simp only [List.length_cons] at hN; omega
              obtain ⟨pa, pb, r, htr, wpa, wpb, hpa, hpb⟩ := ih as lb hN' _ _
                d t₁ u docA docB (preA ++ s) (preB ++ s)
                wfas wfb (wellFormed_builder wfA _) (wellFormed_builder wfB _)
                ha₁ hb hA' hB'
              refine ⟨pa, pb, s ++ r, ?_, wpa, wpb, ?_, ?_⟩
              · rw [transformLoop_insert_a]; exact htr
              · rw [← List.append_assoc]; exact hpa
              · rw [← List.append_assoc]; exact hpb
          | Retain n =>
              rw [wellFormed_cons] at wfa
              obtain ⟨hnpos, wfas⟩ := wfa
              simp only [Op.length] at hnpos
              obtain ⟨hn, t₁, ha₁, rfl⟩ := applyGo_Retain_ok.mp ha
              have htn : (d.take n).length = n := by rw [List.length_take]; omega
              cases lb with
              | nil =>
                  obtain ⟨-, hd⟩ := applyGo_nil_ok hb
                  rw [hd] at hn
                  simp only [List.length_nil] at hn
                  omega
              | cons b bs =>
                  rw [wellFormed_cons] at wfb
                  obtain ⟨hbpos, wfbs⟩ := wfb
                  cases b with
                  | Insert sb =>
                      obtain ⟨u₁, hb₁, rfl⟩ := applyGo_Insert_ok.mp hb
                      have hA' := applyGo_builder_Retain hA
                        (show sb.length ≤ (sb ++ u₁).length by simp)
                      rw [List.take_left' rfl, List.drop_left' rfl] at hA'
                      have hB' := applyGo_builder_Insert sb hB
                      have hN' : (Op.Retain n :: as).length + bs.length ≤ N := by
                        simp only [List.length_cons] at hN ⊢; omega
                      obtain ⟨pa, pb, r, htr, wpa, wpb, hpa, hpb⟩ := ih _ bs hN' _ _
                        d (d.take n ++ t₁) u₁ docA docB (preA ++ sb) (preB ++ sb)
                        (wellFormed_cons.mpr ⟨by simp only [Op.length]; omega, wfas⟩) wfbs
                        (wellFormed_builder wfA _) (wellFormed_builder wfB _)
                        ha hb₁ hA' hB'
                      refine ⟨pa, pb, sb ++ r, ?_, wpa, wpb, ?_, ?_⟩
                      · rw [transformLoop_insert_b_retain]; exact htr
                      · rw [← List.append_assoc]; exact hpa
                      · rw [← List.append_assoc]; exact hpb
                  | Retain m =>
                      simp only [Op.length] at hbpos
                      obtain ⟨hm, u₁, hb₁, rfl⟩ := applyGo_Retain_ok.mp hb
                      have htm : (d.take m).length = m := by rw [List.length_take]; omega
                      rcases Nat.lt_trichotomy n m with hnm | rfl | hnm
                      · -- n < m : a consumed, b shortened
                        have hmin : min n m = n := by omega
                        have hA' := applyGo_builder_Retain hA
                          (show n ≤ (d.take m ++ u₁).length by
                            rw [List.length_append, htm]; omega)
                        rw [take_prefix_take_le (by omega) hm,
                          take_prefix_drop_le (by omega) hm] at hA'
                        have hB' := applyGo_builder_Retain hB
                          (show n ≤ (d.take n ++ t₁).length by
                            rw [List.length_append, htn]; omega)
                        rw [take_prefix_take hn, take_prefix_drop hn] at hB'
                        have hb' : applyGo (Op.Retain (m - n) :: bs) (d.drop n) =
                            .ok ((d.drop n).take (m - n) ++ u₁, []) := by
                          refine applyGo_Retain_ok.mpr ⟨?_, u₁, ?_, rfl⟩
                          · rw [List.length_drop]; omega
                          · rw [drop_drop_sub (by omega)]; exact hb₁
                        have hN' : as.length + (Op.Retain (m - n) :: bs).length ≤ N := by
                          simp only [List.length_cons] at hN ⊢; omega
                        obtain ⟨pa, pb, r, htr, wpa, wpb, hpa, hpb⟩ := ih as _ hN' _ _
                          (d.drop n) t₁ ((d.drop n).take (m - n) ++ u₁) docA docB
                          (preA ++ d.take n) (preB ++ d.take n)
                          wfas
                          (wellFormed_cons.mpr ⟨by simp only [Op.length]; omega, wfbs⟩)
                          (wellFormed_builder wfA _) (wellFormed_builder wfB _)
                          ha₁ hb' hA' hB'
                        refine ⟨pa, pb, d.take n ++ r, ?_, wpa, wpb, ?_, ?_⟩
                        · rw [transformLoop_RR, if_neg (by omega), if_neg (by omega), hmin]
                          exact htr
                        · rw [← List.append_assoc]; exact hpa
                        · rw [← List.append_assoc]; exact hpb
                      · -- n = m : both consumed
                        have hA' := applyGo_builder_Retain hA
                          (show n ≤ (d.take n ++ u₁).length by
                            rw [List.length_append, htn]; omega)
                        rw [take_prefix_take hn, take_prefix_drop hn] at hA'
                        have hB' := applyGo_builder_Retain hB
                          (show n ≤ (d.take n ++ t₁).length by
                            rw [List.length_append, htn]; omega)
                        rw [take_prefix_take hn, take_prefix_drop hn] at hB'
                        have hN' : as.length + bs.length ≤ N := by
                          simp only [List.length_cons] at hN; omega
                        obtain ⟨pa, pb, r, htr, wpa, wpb, hpa, hpb⟩ := ih as bs hN' _ _
                          (d.drop n) t₁ u₁ docA docB
                          (preA ++ d.take n) (preB ++ d.take n)
                          wfas wfbs
                          (wellFormed_builder wfA _) (wellFormed_builder wfB _)
                          ha₁ hb₁ hA' hB'
                        refine ⟨pa, pb, d.take n ++ r, ?_, wpa, wpb, ?_, ?_⟩
                        · rw [transformLoop_RR, if_pos rfl, Nat.min_self]; exact htr
                        · rw [← List.append_assoc]; exact hpa
                        · rw [← List.append_assoc]; exact hpb
                      · -- m < n : b consumed, a shortened
                        have hmin : min n m = m := by omega
                        have hmd : m ≤ d.length := by omega
                        have hA' := applyGo_builder_Retain hA
                          (show m ≤ (d.take m ++ u₁).length by
                            rw [List.length_append, htm]; omega)
                        rw [take_prefix_take hmd, take_prefix_drop hmd] at hA'
                        have hB' := applyGo_builder_Retain hB
                          (show m ≤ (d.take n ++ t₁).length by
                            rw [List.length_append, htn]; omega)
                        rw [take_prefix_take_le (by omega) hn,
                          take_prefix_drop_le (by omega) hn] at hB'
                        have ha' : applyGo (Op.Retain (n - m) :: as) (d.drop m) =
                            .ok ((d.drop m).take (n - m) ++ t₁, []) := by
                          refine applyGo_Retain_ok.mpr ⟨?_, t₁, ?_, rfl⟩
                          · rw [List.length_drop]; omega
                          · rw [drop_drop_sub (by omega)]; exact ha₁
                        have hN' : (Op.Retain (n - m) :: as).length + bs.length ≤ N := by
                          simp only [List.length_cons] at hN ⊢; omega
                        obtain ⟨pa, pb, r, htr, wpa, wpb, hpa, hpb⟩ := ih _ bs hN' _ _
                          (d.drop m) ((d.drop m).take (n - m) ++ t₁) u₁ docA docB
                          (preA ++ d.take m) (preB ++ d.take m)
                          (wellFormed_cons.mpr ⟨by simp only [Op.length]; omega, wfas⟩)
                          wfbs
                          (wellFormed_builder wfA _) (wellFormed_builder wfB _)
                          ha' hb₁ hA' hB'
                        refine ⟨pa, pb, d.take m ++ r, ?_, wpa, wpb, ?_, ?_⟩
                        · rw [transformLoop_RR, if_neg (by omega), if_pos hnm, hmin]
                          exact htr
                        · rw [← List.append_assoc]; exact hpa
                        · rw [← List.append_assoc]; exact hpb
                  | Delete m =>
                      simp only [Op.length] at hbpos
                      obtain ⟨hm, hb₁⟩ := applyGo_Delete_ok.mp hb
                      rcases Nat.lt_trichotomy n m with hnm | rfl | hnm
                      · -- n < m : a consumed, b shortened
                        have hmin : min n m = n := by omega
                        have hB' := applyGo_builder_Delete hB
                          (show n ≤ (d.take n ++ t₁).length by
                            rw [List.length_append, htn]; omega)
                        rw [take_prefix_drop hn] at hB'
                        have hb' : applyGo (Op.Delete (m - n) :: bs) (d.drop n) =
                            .ok (u, []) := by
                          refine applyGo_Delete_ok.mpr ⟨?_, ?_⟩
                          · rw [List.length_drop]; omega
                          · rw [drop_drop_sub (by omega)]; exact hb₁
                        have hN' : as.length + (Op.Delete (m - n) :: bs).length ≤ N := by
                          simp only [List.length_cons] at hN ⊢; omega
                        obtain ⟨pa, pb, r, htr, wpa, wpb, hpa, hpb⟩ := ih as _ hN' _ _
                          (d.drop n) t₁ u docA docB preA preB
                          wfas
                          (wellFormed_cons.mpr ⟨by simp only [Op.length]; omega, wfbs⟩)
                          wfA (wellFormed_builder wfB _)
                          ha₁ hb' hA hB'
                        refine ⟨pa, pb, r, ?_, wpa, wpb, hpa, hpb⟩
                        rw [transformLoop_RD, if_neg (by omega), if_neg (by omega), hmin]
                        exact htr
                      · -- n = m : both consumed
                        have hB' := applyGo_builder_Delete hB
                          (show n ≤ (d.take n ++ t₁).length by
                            rw [List.length_append, htn]; omega)
                        rw [take_prefix_drop hn] at hB'
                        have hN' : as.length + bs.length ≤ N := by
                          simp only [List.length_cons] at hN; omega
                        obtain ⟨pa, pb, r, htr, wpa, wpb, hpa, hpb⟩ := ih as bs hN' _ _
                          (d.drop n) t₁ u docA docB preA preB
                          wfas wfbs wfA (wellFormed_builder wfB _)
                          ha₁ hb₁ hA hB'
                        refine ⟨pa, pb, r, ?_, wpa, wpb, hpa, hpb⟩
                        rw [transformLoop_RD, if_pos rfl, Nat.min_self]
                        exact htr
                      · -- m < n : b consumed, a shortened
                        have hmin : min n m = m := by omega
                        have hmd : m ≤ d.length := by omega
                        have hB' := applyGo_builder_Delete hB
                          (show m ≤ (d.take n ++ t₁).length by
                            rw [List.length_append, htn]; omega)
                        rw [take_prefix_drop_le (by omega) hn] at hB'
                        have ha' : applyGo (Op.Retain (n - m) :: as) (d.drop m) =
                            .ok ((d.drop m).take (n - m) ++ t₁, []) := by
                          refine applyGo_Retain_ok.mpr ⟨?_, t₁, ?_, rfl⟩
                          · rw [List.length_drop]; omega
                          · rw [drop_drop_sub (by omega)]; exact ha₁
                        have hN' : (Op.Retain (n - m) :: as).length + bs.length ≤ N := by
                          simp only [List.length_cons] at hN ⊢; omega
                        obtain ⟨pa, pb, r, htr, wpa, wpb, hpa, hpb⟩ := ih _ bs hN' _ _
                          (d.drop m) ((d.drop m).take (n - m) ++ t₁) u docA docB preA preB
                          (wellFormed_cons.mpr ⟨by simp only [Op.length]; omega, wfas⟩)
                          wfbs wfA (wellFormed_builder wfB _)
                          ha' hb₁ hA hB'
                        refine ⟨pa, pb, r, ?_, wpa, wpb, hpa, hpb⟩
                        rw [transformLoop_RD, if_neg (by omega), if_pos hnm, hmin]
                        exact htr
          | Delete n =>
              rw [wellFormed_cons] at wfa
              obtain ⟨hnpos, wfas⟩ := wfa
              simp only [Op.length] at hnpos
              obtain ⟨hn, ha₁⟩ := applyGo_Delete_ok.mp ha
              have htn : (d.take n).length = n := by rw [List.length_take]; omega
              cases lb with
              | nil =>
                  obtain ⟨-, hd⟩ := applyGo_nil_ok hb
                  rw [hd] at hn
                  simp only [List.length_nil] at hn
                  omega
              | cons b bs =>
                  rw [wellFormed_cons] at wfb
                  obtain ⟨hbpos, wfbs⟩ := wfb
                  cases b with
                  | Insert sb =>
                      obtain ⟨u₁, hb₁, rfl⟩ := applyGo_Insert_ok.mp hb
                      have hA' := applyGo_builder_Retain hA
                        (show sb.length ≤ (sb ++ u₁).length by simp)
                      rw [List.take_left' rfl, List.drop_left' rfl] at hA'
                      have hB' := applyGo_builder_Insert sb hB
                      have hN' : (Op.Delete n :: as).length + bs.length ≤ N := by
                        simp only [List.length_cons] at hN ⊢; omega
                      obtain ⟨pa, pb, r, htr, wpa, wpb, hpa, hpb⟩ := ih _ bs hN' _ _
                        d t u₁ docA docB (preA ++ sb) (preB ++ sb)
                        (wellFormed_cons.mpr ⟨by simp only [Op.length]; omega, wfas⟩) wfbs
                        (wellFormed_builder wfA _) (wellFormed_builder wfB _)
                        ha hb₁ hA' hB'
                      refine ⟨pa, pb, sb ++ r, ?_, wpa, wpb, ?_, ?_⟩
                      · rw [transformLoop_insert_b_delete]; exact htr
                      · rw [← List.append_assoc]; exact hpa
                      · rw [← List.append_assoc]; exact hpb
                  | Retain m =>
                      simp only [Op.length] at hbpos
                      obtain ⟨hm, u₁, hb₁, rfl⟩ := applyGo_Retain_ok.mp hb
                      have htm : (d.take m).length = m := by rw [List.length_take]; omega
                      rcases Nat.lt_trichotomy n m with hnm | rfl | hnm
                      · -- n < m : a consumed, b shortened
                        have hmin : min n m = n := by omega
                        have hA' := applyGo_builder_Delete hA
                          (show n ≤ (d.take m ++ u₁).length by
                            rw [List.length_append, htm]; omega)
                        rw [take_prefix_drop_le (by omega) hm] at hA'
                        have hb' : applyGo (Op.Retain (m - n) :: bs) (d.drop n) =
                            .ok ((d.drop n).take (m - n) ++ u₁, []) := by
                          refine applyGo_Retain_ok.mpr ⟨?_, u₁, ?_, rfl⟩
                          · rw [List.length_drop]; omega
                          · rw [drop_drop_sub (by omega)]; exact hb₁
                        have hN' : as.length + (Op.Retain (m - n) :: bs).length ≤ N := by
                          simp only [List.length_cons] at hN ⊢; omega
                        obtain ⟨pa, pb, r, htr, wpa, wpb, hpa, hpb⟩ := ih as _ hN' _ _
                          (d.drop n) t ((d.drop n).take (m - n) ++ u₁) docA docB preA preB
                          wfas
                          (wellFormed_cons.mpr ⟨by simp only [Op.length]; omega, wfbs⟩)
                          (wellFormed_builder wfA _) wfB
                          ha₁ hb' hA' hB
                        refine ⟨pa, pb, r, ?_, wpa, wpb, hpa, hpb⟩
                        rw [transformLoop_DR, if_neg (by omega), if_neg (by omega), hmin]
                        exact htr
                      · -- n = m : both consumed
                        have hA' := applyGo_builder_Delete hA
                          (show n ≤ (d.take n ++ u₁).length by
                            rw [List.length_append, htn]; omega)
                        rw [take_prefix_drop hn] at hA'
                        have hN' : as.length + bs.length ≤ N := by
                          simp only [List.length_cons] at hN; omega
                        obtain ⟨pa, pb, r, htr, wpa, wpb, hpa, hpb⟩ := ih as bs hN' _ _
                          (d.drop n) t u₁ docA docB preA preB
                          wfas wfbs (wellFormed_builder wfA _) wfB
                          ha₁ hb₁ hA' hB
                        refine ⟨pa, pb, r, ?_, wpa, wpb, hpa, hpb⟩
                        rw [transformLoop_DR, if_pos rfl, Nat.min_self]
                        exact htr
                      · -- m < n : b consumed, a shortened
                        have hmin : min n m = m := by omega
                        have hmd : m ≤ d.length := by omega
                        have hA' := applyGo_builder_Delete hA
                          (show m ≤ (d.take m ++ u₁).length by
                            rw [List.length_append, htm]; omega)
                        rw [take_prefix_drop hmd] at hA'
                        have ha' : applyGo (Op.Delete (n - m) :: as) (d.drop m) =
                            .ok (t, []) := by
                          refine applyGo_Delete_ok.mpr ⟨?_, ?_⟩
                          · rw [List.length_drop]; omega
                          · rw [drop_drop_sub (by omega)]; exact ha₁
                        have hN' : (Op.Delete (n - m) :: as).length + bs.length ≤ N := by
                          simp only [List.length_cons] at hN ⊢; omega
                        obtain ⟨pa, pb, r, htr, wpa, wpb, hpa, hpb⟩ := ih _ bs hN' _ _
                          (d.drop m) t u₁ docA docB preA preB
                          (wellFormed_cons.mpr ⟨by simp only [Op.length]; omega, wfas⟩)
                          wfbs (wellFormed_builder wfA _) wfB
                          ha' hb₁ hA' hB
                        refine ⟨pa, pb, r, ?_, wpa, wpb, hpa, hpb⟩
                        rw [transformLoop_DR, if_neg (by omega), if_pos hnm, hmin]
                        exact htr
                  | Delete m =>
                      simp only [Op.length] at hbpos
                      obtain ⟨hm, hb₁⟩ := applyGo_Delete_ok.mp hb
                      rcases Nat.lt_trichotomy n m with hnm | rfl | hnm
                      · -- n < m : a consumed, b shortened
                        have hb' : applyGo (Op.Delete (m - n) :: bs) (d.drop n) =
                            .ok (u, []) := by
                          refine applyGo_Delete_ok.mpr ⟨?_, ?_⟩
                          · rw [List.length_drop]; omega
                          · rw [drop_drop_sub (by omega)]; exact hb₁
                        have hN' : as.length + (Op.Delete (m - n) :: bs).length ≤ N := by
                          simp only [List.length_cons] at hN ⊢; omega
                        obtain ⟨pa, pb, r, htr, wpa, wpb, hpa, hpb⟩ := ih as _ hN' _ _
                          (d.drop n) t u docA docB preA preB
                          wfas
                          (wellFormed_cons.mpr ⟨by simp only [Op.length]; omega, wfbs⟩)
                          wfA wfB ha₁ hb' hA hB
                        refine ⟨pa, pb, r, ?_, wpa, wpb, hpa, hpb⟩
                        rw [transformLoop_DD, if_neg (by omega), if_neg (by omega)]
                        exact htr
                      · -- n = m : both consumed
                        have hN' : as.length + bs.length ≤ N := by
                          simp only [List.length_cons] at hN; omega
                        obtain ⟨pa, pb, r, htr, wpa, wpb, hpa, hpb⟩ := ih as bs hN' _ _
                          (d.drop n) t u docA docB preA preB
                          wfas wfbs wfA wfB ha₁ hb₁ hA hB
                        refine ⟨pa, pb, r, ?_, wpa, wpb, hpa, hpb⟩
                        rw [transformLoop_DD, if_pos rfl]
                        exact htr
                      · -- m < n : b consumed, a shortened
                        have hmd : m ≤ d.length := by omega
                        have ha' : applyGo (Op.Delete (n - m) :: as) (d.drop m) =
                            .ok (t, []) := by
                          refine applyGo_Delete_ok.mpr ⟨?_, ?_⟩
                          · rw [List.length_drop]; omega
                          · rw [drop_drop_sub (by omega)]; exact ha₁
                        have hN' : (Op.Delete (n - m) :: as).length + bs.length ≤ N := by
                          simp only [List.length_cons] at hN ⊢; omega
                        obtain ⟨pa, pb, r, htr, wpa, wpb, hpa, hpb⟩ := ih _ bs hN' _ _
                          (d.drop m) t u docA docB preA preB
                          (wellFormed_cons.mpr ⟨by simp only [Op.length]; omega, wfas⟩)
                          wfbs wfA wfB ha' hb₁ hA hB
                        refine ⟨pa, pb, r, ?_, wpa, wpb, hpa, hpb⟩
                        rw [transformLoop_DD, if_neg (by omega), if_pos hnm]
                        exact htr

end TextOperation

/-- C1: Transform convergence — for every base document `D` and every pair
of sequences `S1`, `S2` of the data model (no zero-length ops) valid
against `D` (`Retain`+`Delete` lengths summing to `len(D)`), with
`(S1', S2') = transform(S1, S2)`, the transform returns normally, both
compositions succeed, and applying `compose(S1, S2')` to `D` yields the
same document as applying `compose(S2, S1')` to `D`. -/
theorem transform_convergence (S1 S2 : TextOperation) (D : List Char)
    (w1 : TextOperation.wellFormed S1) (w2 : TextOperation.wellFormed S2)
    (hv1 : TextOperation.srcLen S1 = D.length)
    (hv2 : TextOperation.srcLen S2 = D.length) :
    ∃ S1p S2p C1 C2 R,
      TextOperation.transform S1 S2 = some (S1p, S2p) ∧
      TextOperation.compose S1 S2p = .ok C1 ∧
      TextOperation.compose S2 S1p = .ok C2 ∧
      TextOperation.apply C1 D = .ok R ∧
      TextOperation.apply C2 D = .ok R := by
  obtain ⟨t, happ1, hgo1⟩ := TextOperation.apply_of_valid hv1
  obtain ⟨u, happ2, hgo2⟩ := TextOperation.apply_of_valid hv2
  obtain ⟨pa, pb, r, htr, wpa, wpb, hpa, hpb⟩ := TextOperation.transformLoop_correct
    (S1.length + S2.length) S1 S2 le_rfl [] [] D t u t u [] []
    w1 w2 TextOperation.wellFormed_nil TextOperation.wellFormed_nil
    hgo1 hgo2 (TextOperation.applyGo_nil_eq u) (TextOperation.applyGo_nil_eq t)
  simp only [List.nil_append] at hpa hpb
  obtain ⟨c1, hc1, hc1app⟩ := TextOperation.composeLoop_correct
    (S1.length + pb.length) S1 pb le_rfl [] D t r D [] w1 wpb hgo1 hpb (by simp)
  obtain ⟨c2, hc2, hc2app⟩ := TextOperation.composeLoop_correct
    (S2.length + pa.length) S2 pa le_rfl [] D u r D [] w2 wpa hgo2 hpa (by simp)
  exact ⟨pa, pb, c1, c2, r, htr, hc1, hc2,
    TextOperation.apply_eq_ok.mpr (by simpa using hc1app),
    TextOperation.apply_eq_ok.mpr (by simpa using hc2app)⟩

/-- Witness for C1 at `S1 = [Insert("X"), Retain(5)]`,
`S2 = [Retain(5), Insert("Y")]`, `D = "hello"` (spec scenario 3). -/
theorem transform_convergence_witness :
    ∃ S1p S2p C1 C2 R,
      TextOperation.transform [Op.Insert ['X'], Op.Retain 5]
          [Op.Retain 5, Op.Insert ['Y']] = some (S1p, S2p) ∧
      TextOperation.compose [Op.Insert ['X'], Op.Retain 5] S2p = .ok C1 ∧
      TextOperation.compose [Op.Retain 5, Op.Insert ['Y']] S1p = .ok C2 ∧
      TextOperation.apply C1 ['h', 'e', 'l', 'l', 'o'] = .ok R ∧
      TextOperation.apply C2 ['h', 'e', 'l', 'l', 'o'] = .ok R :=
  transform_convergence [Op.Insert ['X'], Op.Retain 5] [Op.Retain 5, Op.Insert ['Y']]
    ['h', 'e', 'l', 'l', 'o'] (by decide) (by decide) (by decide) (by decide)

/-- C5: Transform tie-break — when both inputs start with an `Insert` at the
same position (position 0, each followed by a `Retain` of the whole
document), A's inserted text is placed before B's in the converged
document: `compose(A, B')` applied to `D` yields `s ++ t ++ D`. -/
theorem transform_insert_tie_break (s t D : List Char)
    (hs : s ≠ []) (ht : t ≠ []) (hD : D ≠ []) :
    ∃ pa pb C,
      TextOperation.transform [Op.Insert s, Op.Retain D.length]
          [Op.Insert t, Op.Retain D.length] = some (pa, pb) ∧
      TextOperation.compose [Op.Insert s, Op.Retain D.length] pb = .ok C ∧
      TextOperation.apply C D = .ok (s ++ t ++ D) := by
  have hs' : s.length ≠ 0 := by simpa [List.length_eq_zero] using hs
  have ht' : t.length ≠ 0 := by simpa [List.length_eq_zero] using ht
  have hn' : D.length ≠ 0 := by simpa [List.length_eq_zero] using hD
  have e1 : TextOperation.append [] (Op.Insert s) = [Op.Insert s] := by
    simp [TextOperation.append, Op.length, hs']
  have e2 : TextOperation.append [] (Op.Retain s.length) = [Op.Retain s.length] := by
    simp [TextOperation.append, Op.length, hs']
  have e3 : TextOperation.append [Op.Insert s] (Op.Retain t.length) =
      [Op.Insert s, Op.Retain t.length] := by
    simp [TextOperation.append, Op.length, Op.sameVariant, ht']
  have e4 : TextOperation.append [Op.Retain s.length] (Op.Insert t) =
      [Op.Retain s.length, Op.Insert t] := by
    simp [TextOperation.append, Op.length, Op.sameVariant, ht']
  have e5 : TextOperation.append [Op.Insert s, Op.Retain t.length] (Op.Retain D.length) =
      [Op.Insert s, Op.Retain (t.length + D.length)] := by
    simp [TextOperation.append, Op.length, Op.sameVariant, Op.merge, hn']
  have e6 : TextOperation.append [Op.Retain s.length, Op.Insert t] (Op.Retain D.length) =
      [Op.Retain s.length, Op.Insert t, Op.Retain D.length] := by
    simp [TextOperation.append, Op.length, Op.sameVariant, hn']
  have e7 : TextOperation.append [Op.Insert s] (Op.Insert t) = [Op.Insert (s ++ t)] := by
    simp [TextOperation.append, Op.length, Op.sameVariant, Op.merge, ht']
  have e8 : TextOperation.append [Op.Insert (s ++ t)] (Op.Retain D.length) =
      [Op.Insert (s ++ t), Op.Retain D.length] := by
    simp [TextOperation.append, Op.length, Op.sameVariant, hn']
  refine ⟨[Op.Insert s, Op.Retain (t.length + D.length)],
    [Op.Retain s.length, Op.Insert t, Op.Retain D.length],
    [Op.Insert (s ++ t), Op.Retain D.length], ?_, ?_, ?_⟩
  · rw [TextOperation.transform, TextOperation.transformLoop_insert_a, e1, e2,
      TextOperation.transformLoop_insert_b_retain, e3, e4,
      TextOperation.transformLoop_RR, if_pos rfl, Nat.min_self, e5, e6,
      TextOperation.transformLoop_nil_nil]
  · rw [TextOperation.compose, TextOperation.composeLoop_IR, if_pos rfl, Nat.min_self,
      List.take_length, e1, TextOperation.composeLoop_insert_retain_a, e7,
      TextOperation.composeLoop_RR, if_pos rfl, Nat.min_self, e8,
      TextOperation.composeLoop_nil_nil]
  · rw [TextOperation.apply_eq_ok]
    refine TextOperation.applyGo_Insert_ok.mpr ⟨D, ?_, rfl⟩
    have := TextOperation.applyGo_single_Retain (le_refl D.length)
    rwa [List.take_length, List.drop_length] at this

/-- Witness for C5 at the claim's instance: `A = [Insert("1"), Retain(2)]`,
`B = [Insert("2"), Retain(2)]`, `D = "ab"`; the converged document is
`"12ab"`. -/
theorem transform_insert_tie_break_witness :
    ∃ pa pb C,
      TextOperation.transform [Op.Insert ['1'], Op.Retain 2]
          [Op.Insert ['2'], Op.Retain 2] = some (pa, pb) ∧
      TextOperation.compose [Op.Insert ['1'], Op.Retain 2] pb = .ok C ∧
      TextOperation.apply C ['a', 'b'] = .ok ['1', '2', 'a', 'b'] :=
  transform_insert_tie_break ['1'] ['2'] ['a', 'b'] (by decide) (by decide) (by decide)
